import Mathlib

/-!
Verification of the `whiz` task-runner core against its specification.

The Rust source is shallowly embedded: Rust `HashMap` / `IndexMap` /
`BTreeMap` values are represented as insertion-ordered association lists
(`List (String × β)`), `HashSet` as `List String` with dedup-on-insert,
fallible Rust code (`unwrap`, `assert!`) as `Option`-valued functions where
`none` models a panic, and the worklist loops of the config module as
fuelled recursions where running out of fuel (`none`) models divergence.
Iteration order of Rust hash containers is modelled as insertion order.
-/

namespace Whiz

/-- Lookup in an association list, first binding wins
(models `HashMap::get` / `IndexMap::get` / `BTreeMap::get`). -/
def lookupA {β : Type} (m : List (String × β)) (k : String) : Option β :=
  match m with
  | [] => none
  | (k', v) :: rest => if k' = k then some v else lookupA rest k

/-- Remove all bindings of a key (models `remove` on a map whose keys are unique). -/
def eraseA {β : Type} (m : List (String × β)) (k : String) : List (String × β) :=
  m.filter (fun p => p.1 ≠ k)

/-- Insert a binding, replacing any previous binding of the key
(models `HashMap::insert` / `BTreeMap::insert`). -/
def setA {β : Type} (m : List (String × β)) (k : String) (v : β) : List (String × β) :=
  eraseA m k ++ [(k, v)]

/-- `extend` of one map by another: every binding of `n` is inserted into `m`,
later bindings overriding earlier ones (models `HashMap::extend`). -/
def extendA {β : Type} (m n : List (String × β)) : List (String × β) :=
  n.foldl (fun acc p => setA acc p.1 p.2) m

theorem lookupA_nil {β : Type} (k : String) : lookupA ([] : List (String × β)) k = none := rfl

theorem lookupA_cons {β : Type} (a : String) (b : β) (rest : List (String × β)) (k : String) :
    lookupA ((a, b) :: rest) k = if a = k then some b else lookupA rest k := rfl

theorem eraseA_cons {β : Type} (a : String) (b : β) (rest : List (String × β)) (k : String) :
    eraseA ((a, b) :: rest) k =
      if a = k then eraseA rest k else (a, b) :: eraseA rest k := by
  by_cases h : a = k <;> simp [eraseA, h]

theorem lookupA_eraseA {β : Type} (m : List (String × β)) (k k' : String) :
    lookupA (eraseA m k) k' = if k' = k then none else lookupA m k' := by
  induction m with
  | nil =>
    by_cases h : k' = k <;> simp [eraseA, lookupA, h]
  | cons p rest ih =>
    obtain ⟨a, b⟩ := p
    rw [eraseA_cons]
    by_cases hak : a = k
    · rw [if_pos hak, ih, lookupA_cons]
      by_cases h : k' = k
      · simp [h]
      · have hak' : ¬ a = k' := fun hh => h (hh ▸ hak ▸ rfl)
        simp [h, hak']
    · rw [if_neg hak, lookupA_cons]
      by_cases hak' : a = k'
      · have h : ¬ k' = k := fun hh => hak (hak' ▸ hh)
        simp [hak', h, lookupA_cons]
      · rw [if_neg hak', ih, lookupA_cons, if_neg hak']

theorem lookupA_append {β : Type} (m n : List (String × β)) (k : String) :
    lookupA (m ++ n) k = ((lookupA m k).map some).getD (lookupA n k) := by
  induction m with
  | nil => simp [lookupA]
  | cons p rest ih =>
    obtain ⟨a, b⟩ := p
    by_cases h : a = k <;> simp [lookupA, h, ih]

theorem lookupA_setA {β : Type} (m : List (String × β)) (k k' : String) (v : β) :
    lookupA (setA m k v) k' = if k' = k then some v else lookupA m k' := by
  unfold setA
  rw [lookupA_append, lookupA_eraseA]
  by_cases h : k' = k
  · simp [h, lookupA]
  · have h' : ¬ k = k' := fun hh => h hh.symm
    simp [h, h', lookupA]
    cases lookupA m k' <;> simp

/-! ### Supervisor (`src/actors/command.rs`)

The per-task supervisor `CommandActor`. Child-process handles are opaque:
`ChildState.process` stands for `Child::Process(Popen)`. The outcome of the
operating-system calls made by `Child::poll` (`Popen::poll`,
`wait_timeout`) is an oracle `PollFate` supplied per handled message, so
the handlers are deterministic functions of state, message and fate. -/

/-- `subprocess::ExitStatus`. -/
inductive ExitStat where
  | exited (code : Nat)
  | undetermined
  | signaled (sig : Nat)
  | other (code : Int)
  deriving DecidableEq, Repr

/-- `subprocess::ExitStatus::success`: true exactly for `Exited(0)`. -/
def ExitStat.success : ExitStat → Bool
  | .exited 0 => true
  | _ => false

/-- The `Child` enum of the supervisor. -/
inductive ChildState where
  | notStarted
  | killed
  | process
  | exited (status : ExitStat)
  deriving DecidableEq, Repr

/-- Operating-system calls issued against the child handle. -/
inductive ProcAction where
  | terminate
  | waitTimeout
  | kill
  | wait
  deriving DecidableEq, Repr

/-- Oracle describing how the operating system answers `Child::poll`:
`pollResult` is what `Popen::poll()` reports (`some e` when the process has
already exited with `e`), `gracefulWait` tells whether the 500 ms
`wait_timeout` after `terminate` observed the death. -/
structure PollFate where
  pollResult : Option ExitStat
  gracefulWait : Bool
  deriving DecidableEq, Repr

/-- `Child::poll(kill)`: returns the new child state, whether the function
returned `true` (a state transition happened) and the sequence of
operating-system calls issued. -/
def childPoll (c : ChildState) (kill : Bool) (fate : PollFate) :
    ChildState × Bool × List ProcAction :=
  match c with
  | .process =>
    match fate.pollResult with
    | some e => (.exited e, true, [])
    | none =>
      if kill then
        (.killed, true,
          if fate.gracefulWait then [.terminate, .waitTimeout]
          else [.terminate, .waitTimeout, .kill, .wait])
      else (.process, false, [])
  | c => (c, false, [])

/-- Messages a supervisor sends to its downstream supervisors. -/
inductive OutMsg where
  | willReload (opName : String)
  | reloadOp (opName : String)
  deriving DecidableEq, Repr

/-- The state of a `CommandActor` relevant to the reload protocol:
its name, the names of its downstream supervisors (`nexts`), the child
slot and the `pending_upstream` counter map (`BTreeMap<String, usize>`). -/
structure Sup where
  opName : String
  nexts : List String
  child : ChildState
  pendingUpstream : List (String × Nat)
  deriving DecidableEq, Repr

/-- `CommandActor::send_reload`: `Reload::Op(self.op_name)` to every next. -/
def sendReload (s : Sup) : List (String × OutMsg) :=
  s.nexts.map (fun n => (n, OutMsg.reloadOp s.opName))

/-- `CommandActor::send_will_reload`: `WillReload` to every next. -/
def sendWillReload (s : Sup) : List (String × OutMsg) :=
  s.nexts.map (fun n => (n, OutMsg.willReload s.opName))

/-- `CommandActor::ensure_stopped`: `self.child.poll(true)`, and when that
reports a transition, `send_reload` to the downstream supervisors. -/
def ensureStopped (s : Sup) (fate : PollFate) :
    Sup × List (String × OutMsg) × List ProcAction :=
  let r := childPoll s.child true fate
  ({ s with child := r.1 }, if r.2.1 then sendReload s else [], r.2.2)

/-- Value of the pending-upstream counter for `x` (absent entries count 0). -/
def pcount (s : Sup) (x : String) : Nat :=
  (lookupA s.pendingUpstream x).getD 0

/-- Effects of one handled message: messages sent downstream,
operating-system calls, and whether `reload()` spawned a child. -/
structure StepOut where
  sends : List (String × OutMsg)
  procActions : List ProcAction
  spawned : Bool
  deriving DecidableEq, Repr

/-- `Handler<WillReload>`: increment the counter (remove + insert), then
`ensure_stopped`, then `send_will_reload`. -/
def handleWillReload (s : Sup) (fate : PollFate) (msgOpName : String) : Sup × StepOut :=
  let counter := (lookupA s.pendingUpstream msgOpName).getD 0
  let s1 := { s with pendingUpstream := setA s.pendingUpstream msgOpName (counter + 1) }
  let r := ensureStopped s1 fate
  (r.1, ⟨r.2.1 ++ sendWillReload r.1, r.2.2, false⟩)

/-- The `Reload` message variants. -/
inductive ReloadMsg where
  | start
  | manual
  | watch (files : String)
  | op (opName : String)
  deriving DecidableEq, Repr

/-- `Handler<Reload>`: `ensure_stopped`, then branch on the variant;
`Start`/`Manual`/`Watch` propagate `WillReload` and fall through to
`reload()` (spawn); `Op(name)` removes the counter (`unwrap`: `none`
models the panic on a missing entry), re-inserts `counter - 1` when the
counter was above 1, and spawns only when the map has become empty. -/
def handleReload (s : Sup) (fate : PollFate) (msg : ReloadMsg) : Option (Sup × StepOut) :=
  let r := ensureStopped s fate
  let s1 := r.1
  match msg with
  | .start | .manual | .watch _ =>
    some ({ s1 with child := .process }, ⟨r.2.1 ++ sendWillReload s1, r.2.2, true⟩)
  | .op opName =>
    match lookupA s1.pendingUpstream opName with
    | none => none
    | some counter =>
      let p1 := eraseA s1.pendingUpstream opName
      let p2 := if counter > 1 then setA p1 opName (counter - 1) else p1
      if p2.isEmpty then
        some ({ s1 with child := .process, pendingUpstream := p2 }, ⟨r.2.1, r.2.2, true⟩)
      else
        some ({ s1 with pendingUpstream := p2 }, ⟨r.2.1, r.2.2, false⟩)

/-- Messages arriving in a supervisor's mailbox (protocol part). -/
inductive InMsg where
  | will (opName : String)
  | reload (msg : ReloadMsg)
  deriving DecidableEq, Repr

/-- One mailbox step: dispatch to the matching handler; `none` is a panic. -/
def supStep (s : Sup) (m : InMsg × PollFate) : Option Sup :=
  match m.1 with
  | .will x => some (handleWillReload s m.2 x).1
  | .reload r => (handleReload s m.2 r).map (·.1)

/-- Run a supervisor over a whole mailbox sequence. -/
def runSup (s : Sup) (t : List (InMsg × PollFate)) : Option Sup :=
  t.foldlM supStep s

/-- Number of `WillReload{x}` messages in a sequence. -/
def countWill (x : String) (t : List InMsg) : Nat :=
  t.countP (fun m => match m with | .will y => y = x | _ => false)

/-- Number of `Reload::Op(x)` messages in a sequence. -/
def countOp (x : String) (t : List InMsg) : Nat :=
  t.countP (fun m => match m with | .reload (.op y) => y = x | _ => false)

/-- The names targeted by some `Reload::Op` in the sequence. -/
def opTargets (t : List InMsg) : List String :=
  t.filterMap (fun m => match m with | .reload (.op y) => some y | _ => none)

/-- "each `Reload::Op(x)` is preceded by a distinct matching `WillReload{x}`":
in every prefix, ops of `x` never outnumber will-reloads of `x`. -/
def Covered (t : List InMsg) : Prop :=
  ∀ n ∈ List.range (t.length + 1), ∀ x ∈ opTargets t,
    countOp x (t.take n) ≤ countWill x (t.take n)

instance (t : List InMsg) : Decidable (Covered t) := by
  unfold Covered; infer_instance

/-- The pending map stores exactly the positive values of the counter
function `f`, and no zero entries. -/
def PendingRepr (s : Sup) (f : String → Nat) : Prop :=
  ∀ x, lookupA s.pendingUpstream x = if f x = 0 then none else some (f x)

theorem handleWillReload_pending (s : Sup) (fate : PollFate) (x : String) :
    (handleWillReload s fate x).1.pendingUpstream =
      setA s.pendingUpstream x ((lookupA s.pendingUpstream x).getD 0 + 1) := rfl

theorem handleWillReload_sends (s : Sup) (fate : PollFate) (x : String) :
    ∀ n ∈ s.nexts, (n, OutMsg.willReload s.opName) ∈ (handleWillReload s fate x).2.sends := by
  intro n hn
  have hname : (handleWillReload s fate x).1.opName = s.opName := rfl
  have hnexts : (handleWillReload s fate x).1.nexts = s.nexts := rfl
  have hsends : (handleWillReload s fate x).2.sends =
      (handleWillReload s fate x).2.sends := rfl
  show _ ∈ (handleWillReload s fate x).2.sends
  have : (n, OutMsg.willReload s.opName) ∈ sendWillReload (handleWillReload s fate x).1 := by
    unfold sendWillReload
    rw [hname, hnexts]
    exact List.mem_map.mpr ⟨n, hn, rfl⟩
  unfold handleWillReload at this ⊢
  exact List.mem_append.mpr (Or.inr this)

theorem ensureStopped_pending (s : Sup) (fate : PollFate) :
    (ensureStopped s fate).1.pendingUpstream = s.pendingUpstream := rfl

theorem ensureStopped_name_nexts (s : Sup) (fate : PollFate) :
    (ensureStopped s fate).1.opName = s.opName ∧ (ensureStopped s fate).1.nexts = s.nexts :=
  ⟨rfl, rfl⟩

theorem handleReload_start (s : Sup) (fate : PollFate) :
    handleReload s fate .start =
      some ({ (ensureStopped s fate).1 with child := .process },
        ⟨(ensureStopped s fate).2.1 ++ sendWillReload (ensureStopped s fate).1,
          (ensureStopped s fate).2.2, true⟩) := rfl

theorem handleReload_manual (s : Sup) (fate : PollFate) :
    handleReload s fate .manual =
      some ({ (ensureStopped s fate).1 with child := .process },
        ⟨(ensureStopped s fate).2.1 ++ sendWillReload (ensureStopped s fate).1,
          (ensureStopped s fate).2.2, true⟩) := rfl

theorem handleReload_watch (s : Sup) (fate : PollFate) (files : String) :
    handleReload s fate (.watch files) =
      some ({ (ensureStopped s fate).1 with child := .process },
        ⟨(ensureStopped s fate).2.1 ++ sendWillReload (ensureStopped s fate).1,
          (ensureStopped s fate).2.2, true⟩) := rfl

theorem handleReload_op_some (s : Sup) (fate : PollFate) (x : String) (c : Nat)
    (h : lookupA s.pendingUpstream x = some c) :
    handleReload s fate (.op x) =
      (let p1 := eraseA s.pendingUpstream x
       let p2 := if c > 1 then setA p1 x (c - 1) else p1
       if p2.isEmpty then
         some ({ (ensureStopped s fate).1 with child := .process, pendingUpstream := p2 },
           ⟨(ensureStopped s fate).2.1, (ensureStopped s fate).2.2, true⟩)
       else
         some ({ (ensureStopped s fate).1 with pendingUpstream := p2 },
           ⟨(ensureStopped s fate).2.1, (ensureStopped s fate).2.2, false⟩)) := by
  unfold handleReload
  have hp : (ensureStopped s fate).1.pendingUpstream = s.pendingUpstream := rfl
  simp only [hp, h]

/-- C10 helper: the `Reload::Op` handler hits the `unwrap` of a missing
counter and panics (`none`). -/
theorem handleReload_op_none (s : Sup) (fate : PollFate) (x : String)
    (h : lookupA s.pendingUpstream x = none) :
    handleReload s fate (.op x) = none := by
  unfold handleReload
  have hp : (ensureStopped s fate).1.pendingUpstream = s.pendingUpstream := rfl
  simp only [hp, h]

theorem pendingRepr_lookup_getD (s : Sup) (f : String → Nat) (h : PendingRepr s f)
    (x : String) : (lookupA s.pendingUpstream x).getD 0 = f x := by
  rw [h x]; by_cases hf : f x = 0 <;> simp [hf]

theorem pendingRepr_will (s : Sup) (fate : PollFate) (x : String) (f : String → Nat)
    (h : PendingRepr s f) :
    PendingRepr (handleWillReload s fate x).1 (fun y => if y = x then f x + 1 else f y) := by
  intro y
  rw [handleWillReload_pending, lookupA_setA, pendingRepr_lookup_getD s f h x]
  by_cases hy : y = x
  · simp [hy]
  · simp [hy, h y]

theorem pendingRepr_empty_iff (s : Sup) (f : String → Nat) (h : PendingRepr s f) :
    s.pendingUpstream.isEmpty = true ↔ ∀ y, f y = 0 := by
  constructor
  · intro he y
    have hy := h y
    cases hm : s.pendingUpstream with
    | nil =>
      rw [hm] at hy
      simp [lookupA] at hy
      by_cases hf : f y = 0
      · exact hf
      · simp [hf] at hy
    | cons p rest => rw [hm] at he; simp [List.isEmpty] at he
  · intro hz
    cases hm : s.pendingUpstream with
    | nil => simp
    | cons p rest =>
      exfalso
      have hk := h p.1
      rw [hm] at hk
      simp [lookupA, hz p.1] at hk

theorem pendingRepr_op (s : Sup) (fate : PollFate) (x : String) (f : String → Nat)
    (h : PendingRepr s f) (hx : f x ≠ 0) :
    ∃ out, handleReload s fate (.op x) = some out ∧
      PendingRepr out.1 (fun y => if y = x then f x - 1 else f y) ∧
      out.2.spawned = out.1.pendingUpstream.isEmpty ∧
      out.1.opName = s.opName ∧ out.1.nexts = s.nexts := by
  have hl : lookupA s.pendingUpstream x = some (f x) := by rw [h x]; simp [hx]
  have heq := handleReload_op_some s fate x (f x) hl
  simp only at heq
  set p1 := eraseA s.pendingUpstream x with hp1
  set p2 := if f x > 1 then setA p1 x (f x - 1) else p1 with hp2
  have hrepr2 : ∀ y, lookupA p2 y = if (if y = x then f x - 1 else f y) = 0 then none
      else some (if y = x then f x - 1 else f y) := by
    intro y
    by_cases hgt : f x > 1
    · rw [hp2, if_pos hgt, lookupA_setA]
      by_cases hy : y = x
      · have : ¬ (f x - 1 = 0) := by omega
        simp [hy, this]
      · rw [if_neg hy, hp1, lookupA_eraseA, if_neg hy, h y]
        simp [hy]
    · have hone : f x = 1 := by omega
      rw [hp2, if_neg hgt, hp1, lookupA_eraseA]
      by_cases hy : y = x
      · simp [hy, hone]
      · simp [hy, h y]
  by_cases hemp : p2.isEmpty
  · have heq2 : handleReload s fate (.op x) =
        some ({ (ensureStopped s fate).1 with child := .process, pendingUpstream := p2 },
          ⟨(ensureStopped s fate).2.1, (ensureStopped s fate).2.2, true⟩) := by
      rw [heq]; simp only [if_pos hemp]
    refine ⟨_, heq2, ?_, ?_, rfl, rfl⟩
    · intro y; exact hrepr2 y
    · simp [hemp]
  · have heq2 : handleReload s fate (.op x) =
        some ({ (ensureStopped s fate).1 with pendingUpstream := p2 },
          ⟨(ensureStopped s fate).2.1, (ensureStopped s fate).2.2, false⟩) := by
      rw [heq]; simp only [if_neg hemp]
    refine ⟨_, heq2, ?_, ?_, rfl, rfl⟩
    · intro y; exact hrepr2 y
    · simp [hemp]

theorem countWill_cons_will (y x : String) (l : List InMsg) :
    countWill y (.will x :: l) = countWill y l + (if x = y then 1 else 0) := by
  simp [countWill, List.countP_cons]

theorem countWill_cons_reload (y : String) (r : ReloadMsg) (l : List InMsg) :
    countWill y (.reload r :: l) = countWill y l := by
  simp [countWill, List.countP_cons]

theorem countOp_cons_will (y x : String) (l : List InMsg) :
    countOp y (.will x :: l) = countOp y l := by
  simp [countOp, List.countP_cons]

theorem countOp_cons_reload (y : String) (r : ReloadMsg) (l : List InMsg) :
    countOp y (.reload r :: l) =
      countOp y l + (match r with | .op x => if x = y then 1 else 0 | _ => 0) := by
  cases r <;> simp [countOp, List.countP_cons]

theorem runSup_cons (s : Sup) (m : InMsg × PollFate) (rest : List (InMsg × PollFate)) :
    runSup s (m :: rest) = (supStep s m).bind (fun s1 => runSup s1 rest) := by
  simp [runSup, List.foldlM_cons, Option.bind]

theorem optBind_some {α β : Type} (a : α) (f : α → Option β) :
    (Option.some a).bind f = f a := rfl

/-- Main trace invariant: if the pending map represents `f` and, in every
prefix, ops of any name never exceed `f` plus the will-reloads so far, the
run never panics and the final map represents the exactly-balanced counts. -/
theorem runSup_aux (t : List (InMsg × PollFate)) :
    ∀ (s : Sup) (f : String → Nat),
    PendingRepr s f →
    (∀ n, n ≤ t.length → ∀ x,
      countOp x ((t.map Prod.fst).take n) ≤ f x + countWill x ((t.map Prod.fst).take n)) →
    ∃ s' g, runSup s t = some s' ∧ PendingRepr s' g ∧
      (∀ x, g x + countOp x (t.map Prod.fst) = f x + countWill x (t.map Prod.fst)) := by
  induction t with
  | nil =>
    intro s f h _
    exact ⟨s, f, rfl, h, by simp [countOp, countWill]⟩
  | cons mf rest ih =>
    intro s f h hcov
    obtain ⟨m, fate⟩ := mf
    have hlen : ∀ n, n ≤ rest.length → n + 1 ≤ (⟨m, fate⟩ :: rest : List (InMsg × PollFate)).length := by
      intro n hn; simp; omega
    match m with
    | .will x =>
      rw [runSup_cons]
      have hstep : supStep s (⟨InMsg.will x, fate⟩) = some (handleWillReload s fate x).1 := rfl
      rw [hstep, optBind_some]
      have h1 := pendingRepr_will s fate x f h
      have hcov1 : ∀ n, n ≤ rest.length → ∀ y,
          countOp y ((rest.map Prod.fst).take n) ≤
            (if y = x then f x + 1 else f y) + countWill y ((rest.map Prod.fst).take n) := by
        intro n hn y
        have := hcov (n + 1) (by simp; omega) y
        simp only [List.map_cons, List.take_succ_cons, countOp_cons_will,
          countWill_cons_will] at this
        by_cases hy : y = x
        · subst hy; simp at this ⊢; omega
        · have hxy : ¬ (x = y) := fun hh => hy hh.symm
          simp [hxy] at this
          simp [hy]
          omega
      obtain ⟨s', g, hrun, hg, heq⟩ := ih _ _ h1 hcov1
      refine ⟨s', g, hrun, hg, ?_⟩
      intro y
      have := heq y
      simp only [List.map_cons, countOp_cons_will, countWill_cons_will]
      by_cases hy : x = y
      · subst hy; simp at this ⊢; omega
      · simp [hy] at this ⊢
        have hyx : ¬ (y = x) := fun hh => hy hh.symm
        simp [hyx] at this
        omega
    | .reload (.op x) =>
      have hfx : 1 ≤ f x := by
        have := hcov 1 (by simp) x
        simp only [List.map_cons, List.take_succ_cons, List.take_zero,
          countOp_cons_reload, countWill_cons_reload] at this
        simp [countOp, countWill] at this
        omega
      obtain ⟨out, hout, hrepr, _, _, _⟩ :=
        pendingRepr_op s fate x f h (by omega)
      rw [runSup_cons]
      have hstep : supStep s (⟨InMsg.reload (.op x), fate⟩) = some out.1 := by
        simp [supStep, hout]
      rw [hstep, optBind_some]
      have hcov1 : ∀ n, n ≤ rest.length → ∀ y,
          countOp y ((rest.map Prod.fst).take n) ≤
            (if y = x then f x - 1 else f y) + countWill y ((rest.map Prod.fst).take n) := by
        intro n hn y
        have := hcov (n + 1) (by simp; omega) y
        simp only [List.map_cons, List.take_succ_cons, countOp_cons_reload,
          countWill_cons_reload] at this
        by_cases hy : y = x
        · subst hy; simp at this ⊢; omega
        · have hxy : ¬ (x = y) := fun hh => hy hh.symm
          simp [hxy] at this
          simp [hy]
          omega
      obtain ⟨s', g, hrun, hg, heq⟩ := ih _ _ hrepr hcov1
      refine ⟨s', g, hrun, hg, ?_⟩
      intro y
      have := heq y
      simp only [List.map_cons, countOp_cons_reload, countWill_cons_reload]
      by_cases hy : x = y
      · subst hy; simp at this ⊢; omega
      · simp [hy] at this ⊢
        have hyx : ¬ (y = x) := fun hh => hy hh.symm
        simp [hyx] at this
        omega
    | .reload .start | .reload .manual | .reload (.watch files) =>
      rw [runSup_cons]
      first
      | rw [show supStep s (⟨InMsg.reload .start, fate⟩) =
            some ({ (ensureStopped s fate).1 with child := .process }) from rfl]
      | rw [show supStep s (⟨InMsg.reload .manual, fate⟩) =
            some ({ (ensureStopped s fate).1 with child := .process }) from rfl]
      | rw [show supStep s (⟨InMsg.reload (.watch files), fate⟩) =
            some ({ (ensureStopped s fate).1 with child := .process }) from rfl]
      all_goals
        rw [optBind_some]
        have h1 : PendingRepr ({ (ensureStopped s fate).1 with child := .process }) f := by
          intro y
          rw [show ({ (ensureStopped s fate).1 with child := ChildState.process
            } : Sup).pendingUpstream = s.pendingUpstream from rfl]
          exact h y
        have hcov1 : ∀ n, n ≤ rest.length → ∀ y,
            countOp y ((rest.map Prod.fst).take n) ≤
              f y + countWill y ((rest.map Prod.fst).take n) := by
          intro n hn y
          have := hcov (n + 1) (by simp; omega) y
          simp only [List.map_cons, List.take_succ_cons, countOp_cons_reload,
            countWill_cons_reload] at this
          simpa using this
        obtain ⟨s', g, hrun, hg, heq⟩ := ih _ _ h1 hcov1
        refine ⟨s', g, hrun, hg, ?_⟩
        intro y
        have := heq y
        simp only [List.map_cons, countOp_cons_reload, countWill_cons_reload]
        simpa using this

theorem countOp_eq_zero_of_not_target (x : String) (l : List InMsg)
    (h : x ∉ opTargets l) : countOp x l = 0 := by
  rw [countOp, List.countP_eq_zero]
  intro a ha
  match a with
  | .will y => simp
  | .reload .start | .reload .manual | .reload (.watch _) => simp
  | .reload (.op y) =>
    simp only [decide_eq_true_eq]
    intro hyx
    exact h (List.mem_filterMap.mpr ⟨.reload (.op y), ha, by simp [hyx]⟩)

theorem countOp_take_le (x : String) (l : List InMsg) (n : Nat) :
    countOp x (l.take n) ≤ countOp x l :=
  List.Sublist.countP_le _ (List.take_sublist n l)

theorem covered_bound (l : List InMsg) (h : Covered l) :
    ∀ n x, countOp x (l.take n) ≤ countWill x (l.take n) := by
  intro n x
  by_cases hx : x ∈ opTargets l
  · by_cases hn : n ≤ l.length
    · exact h n (List.mem_range.mpr (by omega)) x hx
    · rw [List.take_of_length_le (by omega)]
      have := h l.length (List.mem_range.mpr (by omega)) x hx
      rwa [List.take_length] at this
  · have h0 : countOp x l = 0 := countOp_eq_zero_of_not_target x l hx
    have := countOp_take_le x l n
    omega

/-- **C1.** For every supervisor and every incoming message sequence in
which each `Reload::Op(x)` is preceded by a distinct matching
`WillReload{x}` (`Covered`), every counter in the `pending_upstream` map
stays nonnegative — concretely: no handler ever panics and after every
prefix each counter equals the number of `WillReload{x}` received minus
the number of `Reload::Op(x)` received.  Moreover, handling `WillReload{x}`
increments the counter for `x` by exactly one and forwards `WillReload`
downstream, handling `Reload::Op(x)` decrements it by exactly one, and a
`Reload::Op` spawns the child exactly when the map has become empty. -/
theorem c1_pending_upstream_protocol (s0 : Sup) (t : List (InMsg × PollFate))
    (h0 : s0.pendingUpstream = []) (hcov : Covered (t.map Prod.fst)) :
    (∀ n, n ≤ t.length → ∃ s' g, runSup s0 (t.take n) = some s' ∧ PendingRepr s' g ∧
        ∀ x, g x + countOp x ((t.map Prod.fst).take n) = countWill x ((t.map Prod.fst).take n))
    ∧ (∀ (s : Sup) (fate : PollFate) (x : String),
        pcount (handleWillReload s fate x).1 x = pcount s x + 1
        ∧ ∀ nx ∈ s.nexts, (nx, OutMsg.willReload s.opName) ∈ (handleWillReload s fate x).2.sends)
    ∧ (∀ (s : Sup) (fate : PollFate) (x : String) (c : Nat) (out : Sup × StepOut),
        lookupA s.pendingUpstream x = some c → c ≠ 0 →
        handleReload s fate (.op x) = some out →
        pcount out.1 x + 1 = pcount s x)
    ∧ (∀ (s : Sup) (fate : PollFate) (x : String) (out : Sup × StepOut),
        handleReload s fate (.op x) = some out →
        (out.2.spawned = true ↔ out.1.pendingUpstream = [])) := by
  refine ⟨?_, ?_, ?_, ?_⟩
  · intro n hn
    have hrepr0 : PendingRepr s0 (fun _ => 0) := by
      intro y; rw [h0]; simp [lookupA]
    have hb := covered_bound (t.map Prod.fst) hcov
    have hcond : ∀ m, m ≤ (t.take n).length → ∀ x,
        countOp x (((t.take n).map Prod.fst).take m) ≤
          (fun _ => 0) x + countWill x (((t.take n).map Prod.fst).take m) := by
      intro m hm x
      have : ((t.take n).map Prod.fst).take m = (t.map Prod.fst).take (min m n) := by
        rw [← List.map_take, List.take_take, List.map_take]
      rw [this]
      simpa using hb (min m n) x
    obtain ⟨s', g, hrun, hg, heq⟩ := runSup_aux (t.take n) s0 (fun _ => 0) hrepr0 hcond
    refine ⟨s', g, hrun, hg, ?_⟩
    intro x
    have := heq x
    rw [List.map_take] at this
    omega
  · intro s fate x
    refine ⟨?_, handleWillReload_sends s fate x⟩
    rw [pcount, pcount, handleWillReload_pending, lookupA_setA, if_pos rfl]
    simp
  · intro s fate x c out hl hc hout
    rw [handleReload_op_some s fate x c hl] at hout
    simp only at hout
    have hpc : pcount s x = c := by rw [pcount, hl]; rfl
    by_cases hgt : c > 1
    · simp only [if_pos hgt] at hout
      by_cases hemp : (setA (eraseA s.pendingUpstream x) x (c - 1)).isEmpty
      · rw [if_pos hemp] at hout
        cases hout
        rw [pcount]
        simp only
        rw [lookupA_setA, if_pos rfl]
        simp [hpc]; omega
      · rw [if_neg hemp] at hout
        cases hout
        rw [pcount]
        simp only
        rw [lookupA_setA, if_pos rfl]
        simp [hpc]; omega
    · simp only [if_neg hgt] at hout
      have hc1 : c = 1 := by omega
      by_cases hemp : (eraseA s.pendingUpstream x).isEmpty
      · rw [if_pos hemp] at hout
        cases hout
        rw [pcount]
        simp only
        rw [lookupA_eraseA, if_pos rfl]
        simp [hpc, hc1]
      · rw [if_neg hemp] at hout
        cases hout
        rw [pcount]
        simp only
        rw [lookupA_eraseA, if_pos rfl]
        simp [hpc, hc1]
  · intro s fate x out hout
    cases hl : lookupA s.pendingUpstream x with
    | none => rw [handleReload_op_none s fate x hl] at hout; cases hout
    | some c =>
      rw [handleReload_op_some s fate x c hl] at hout
      simp only at hout
      set p2 := if c > 1 then setA (eraseA s.pendingUpstream x) x (c - 1)
        else eraseA s.pendingUpstream x with hp2
      by_cases hemp : p2.isEmpty
      · rw [if_pos hemp] at hout
        cases hout
        simp only
        rw [List.isEmpty_iff] at hemp
        simp [hemp]
      · rw [if_neg hemp] at hout
        cases hout
        simp only
        rw [List.isEmpty_iff] at hemp
        simp [hemp]

theorem c1_pending_upstream_protocol_witness :
    (⟨"b", [], ChildState.notStarted, []⟩ : Sup).pendingUpstream = [] ∧
    Covered ([(InMsg.will "a", PollFate.mk none true),
              (InMsg.reload (.op "a"), PollFate.mk none true)].map Prod.fst) ∧
    ∃ s' g, runSup ⟨"b", [], ChildState.notStarted, []⟩
        ([(InMsg.will "a", PollFate.mk none true),
          (InMsg.reload (.op "a"), PollFate.mk none true)].take 2) = some s' ∧
      PendingRepr s' g ∧
      ∀ x, g x + countOp x ((([(InMsg.will "a", PollFate.mk none true),
          (InMsg.reload (.op "a"), PollFate.mk none true)].map Prod.fst)).take 2) =
        countWill x ((([(InMsg.will "a", PollFate.mk none true),
          (InMsg.reload (.op "a"), PollFate.mk none true)].map Prod.fst)).take 2) := by
  refine ⟨rfl, by decide, ?_⟩
  exact (c1_pending_upstream_protocol ⟨"b", [], ChildState.notStarted, []⟩
    [(InMsg.will "a", PollFate.mk none true), (InMsg.reload (.op "a"), PollFate.mk none true)]
    rfl (by decide)).1 2 (by decide)

/-- **C3.** A supervisor never holds two non-terminal children at once:
`ensure_stopped` never leaves a `Process` child behind (so the spawn in
`reload()` always starts from a child-free slot); when the current child is
a still-running `Process` (its `poll()` reports nothing), `ensure_stopped`
terminates it — graceful `terminate`, bounded wait, then `kill` and `wait`
when the bounded wait misses — leaves it `Killed` (or `Exited` when the
process had already finished), and sends `Reload::Op(self)` to every
downstream supervisor; and every spawn of the `Reload` handler happens
from the state `ensure_stopped` produced. -/
theorem c3_ensure_stopped_before_spawn :
    (∀ (s : Sup) (fate : PollFate), s.child = .process →
      ((ensureStopped s fate).1.child = .killed ∨
        ∃ e, (ensureStopped s fate).1.child = .exited e)
      ∧ (ensureStopped s fate).2.1 = sendReload s
      ∧ (fate.pollResult = none →
          (ensureStopped s fate).1.child = .killed ∧
          (ensureStopped s fate).2.2 =
            if fate.gracefulWait then [ProcAction.terminate, ProcAction.waitTimeout]
            else [ProcAction.terminate, ProcAction.waitTimeout,
                  ProcAction.kill, ProcAction.wait]))
    ∧ (∀ (s : Sup) (fate : PollFate), (ensureStopped s fate).1.child ≠ .process)
    ∧ (∀ (s : Sup) (fate : PollFate) (msg : ReloadMsg) (out : Sup × StepOut),
        handleReload s fate msg = some out → out.2.spawned = true →
        out.1.child = .process ∧ (ensureStopped s fate).1.child ≠ .process) := by
  have hstop : ∀ (s : Sup) (fate : PollFate), (ensureStopped s fate).1.child ≠ .process := by
    intro s fate
    unfold ensureStopped childPoll
    match hs : s.child with
    | .process =>
      cases hp : fate.pollResult with
      | some e => simp [hs, hp]
      | none => simp [hs, hp]
    | .notStarted => simp [hs]
    | .killed => simp [hs]
    | .exited e => simp [hs]
  refine ⟨?_, hstop, ?_⟩
  · intro s fate hs
    unfold ensureStopped childPoll
    cases hp : fate.pollResult with
    | some e =>
      refine ⟨Or.inr ⟨e, by simp [hs, hp]⟩, by simp [hs, hp], ?_⟩
      intro h; exact absurd h (Option.some_ne_none e)
    | none =>
      exact ⟨Or.inl (by simp [hs, hp]), by simp [hs, hp], fun _ => ⟨by simp [hs, hp], by simp [hs, hp]⟩⟩
  · intro s fate msg out hout hsp
    match msg with
    | .start =>
      rw [handleReload_start] at hout
      cases hout
      exact ⟨rfl, hstop s fate⟩
    | .manual =>
      rw [handleReload_manual] at hout
      cases hout
      exact ⟨rfl, hstop s fate⟩
    | .watch files =>
      rw [handleReload_watch] at hout
      cases hout
      exact ⟨rfl, hstop s fate⟩
    | .op x =>
      cases hl : lookupA s.pendingUpstream x with
      | none => rw [handleReload_op_none s fate x hl] at hout; cases hout
      | some c =>
        rw [handleReload_op_some s fate x c hl] at hout
        simp only at hout
        set p2 := if c > 1 then setA (eraseA s.pendingUpstream x) x (c - 1)
          else eraseA s.pendingUpstream x with hp2
        by_cases hemp : p2.isEmpty
        · rw [if_pos hemp] at hout
          cases hout
          exact ⟨rfl, hstop s fate⟩
        · rw [if_neg hemp] at hout
          cases hout
          cases hsp

theorem c3_ensure_stopped_before_spawn_witness :
    (⟨"a", ["b"], ChildState.process, []⟩ : Sup).child = ChildState.process ∧
    (ensureStopped ⟨"a", ["b"], ChildState.process, []⟩ ⟨none, false⟩).1.child =
      ChildState.killed ∧
    (ensureStopped ⟨"a", ["b"], ChildState.process, []⟩ ⟨none, false⟩).2.1 =
      sendReload ⟨"a", ["b"], ChildState.process, []⟩ := by
  refine ⟨rfl, ?_, ?_⟩
  · exact ((c3_ensure_stopped_before_spawn.1 ⟨"a", ["b"], ChildState.process, []⟩
      ⟨none, false⟩ rfl).2.2 rfl).1
  · exact (c3_ensure_stopped_before_spawn.1 ⟨"a", ["b"], ChildState.process, []⟩
      ⟨none, false⟩ rfl).2.1

/-- **C10.** If a supervisor handles `Reload::Op(x)` while its
`pending_upstream` map holds no entry for `x`, the handler panics on the
`unwrap` of the missing counter (modelled by `none`) instead of treating
the counter as zero: the WillReload-before-Op ordering is a hard
precondition of `Reload::Op`. -/
theorem c10_reload_op_unmatched_panics (s : Sup) (fate : PollFate) (x : String)
    (h : lookupA s.pendingUpstream x = none) :
    handleReload s fate (.op x) = none :=
  handleReload_op_none s fate x h

theorem c10_reload_op_unmatched_panics_witness :
    lookupA (⟨"b", [], ChildState.notStarted, []⟩ : Sup).pendingUpstream "a" = none ∧
    handleReload ⟨"b", [], ChildState.notStarted, []⟩ ⟨none, true⟩ (.op "a") = none :=
  ⟨rfl, c10_reload_op_unmatched_panics ⟨"b", [], ChildState.notStarted, []⟩ ⟨none, true⟩ "a" rfl⟩

/-! ### Grim reaper (`src/actors/grim_reaper.rs`)

`GrimReaperActor` holds the set of names still owing an `InviteAccepted`
(`live_invites`, a `HashSet`) and the statuses of the tasks that died
unsuccessfully (`non_zero_deaths`, a `std::collections::HashMap`).  The
CONTENTS of that map are determined — here tracked as the list of entries
in arrival order — but `non_zero_deaths.iter().next()`, the entry whose
code becomes the process exit code, draws from the map in hash-iteration
order, which is arbitrary.  That draw is modelled by an unconstrained
selector `pick`, quantified over all functions that return `none` exactly
on the empty map and otherwise some member.  Targets are identified by
name. -/

/-- Value of a Rust `u32` after an `as i32` cast (two's-complement wrap). -/
def u32AsI32 (n : Nat) : Int :=
  let m : Nat := n % 2 ^ 32
  if m < 2 ^ 31 then (m : Int) else (m : Int) - 2 ^ 32

/-- The exit-code mapping of `Handler<InviteAccepted>`:
`Exited(code) → code as i32`, `Other(code) → code`,
`Signaled(sig) → sig as i32` (exact, `u8`), `Undetermined → 1`. -/
def exitCode : ExitStat → Int
  | .exited code => u32AsI32 code
  | .other code => code
  | .signaled sig => (sig : Int)
  | .undetermined => 1

/-- The exit code the claim under test prescribes; this definition follows
the spec's words, not the source: `0` when no non-success status was
collected, else the code of the FIRST collected non-success.  The source
instead draws `non_zero_deaths.iter().next()` from a hash map whose
iteration order is arbitrary; `specFirstNonSuccessCode` exists only to be
compared against that behaviour. -/
def specFirstNonSuccessCode (deaths : List (String × ExitStat)) : Int :=
  match deaths.head? with
  | none => 0
  | some (_, s) => exitCode s

/-- A valid model of `HashMap::iter().next()` on `non_zero_deaths`:
`none` exactly on the empty map, otherwise SOME entry of the map — which
one is left unspecified (hash-iteration order is arbitrary). -/
def PickValid (pick : List (String × ExitStat) → Option (String × ExitStat)) : Prop :=
  (∀ l, pick l = none ↔ l = []) ∧ ∀ l x, pick l = some x → x ∈ l

/-- The exit code computed once the live set empties:
`if let Some((_op_name, status)) = non_zero_deaths.iter().next()` stops
the runtime with the mapped code of the drawn status, else plain `stop()`
exits with code `0`. -/
def pickedCode (pick : List (String × ExitStat) → Option (String × ExitStat))
    (deaths : List (String × ExitStat)) : Int :=
  match pick deaths with
  | none => 0
  | some x => exitCode x.2

/-- State of `GrimReaperActor`. -/
structure ReaperState where
  liveInvites : List String
  nonZeroDeaths : List (String × ExitStat)
  deriving DecidableEq, Repr

/-- `GrimReaperActor::start_new`: initial state (live invites = the map's
keys, no deaths) plus the list of targets that get a `PermaDeathInvite`. -/
def grimReaperStartNew (names : List String) : ReaperState × List String :=
  ({ liveInvites := names, nonZeroDeaths := [] }, names)

/-- `Handler<InviteAccepted>`: `assert!(live_invites.remove(name))` (`none`
models the panicking assert), record a non-success status, and when the
live set is now empty, terminate the runtime (`some code`) with the code
of the entry the arbitrary-order `iter().next()` (`pick`) draws from the
collected map, or `0` when the map is empty. -/
def handleInviteAccepted (pick : List (String × ExitStat) → Option (String × ExitStat))
    (st : ReaperState) (name : String) (status : ExitStat) :
    Option (ReaperState × Option Int) :=
  if name ∈ st.liveInvites then
    let st1 : ReaperState :=
      { liveInvites := st.liveInvites.erase name,
        nonZeroDeaths :=
          if status.success then st.nonZeroDeaths
          else st.nonZeroDeaths ++ [(name, status)] }
    if st1.liveInvites.isEmpty then some (st1, some (pickedCode pick st1.nonZeroDeaths))
    else some (st1, none)
  else none

/-- Feed a sequence of `InviteAccepted` events to the reaper; stops at the
first exit decision. -/
def runReaper (pick : List (String × ExitStat) → Option (String × ExitStat))
    (st : ReaperState) : List (String × ExitStat) → Option (ReaperState × Option Int)
  | [] => some (st, none)
  | (n, e) :: rest =>
    (handleInviteAccepted pick st n e).bind fun r =>
      match r.2 with
      | some c => some (r.1, some c)
      | none => runReaper pick r.1 rest

theorem runReaper_aux (pick : List (String × ExitStat) → Option (String × ExitStat))
    (events : List (String × ExitStat)) :
    ∀ (st : ReaperState), st.liveInvites.Nodup →
    (events.map Prod.fst).Perm st.liveInvites →
    (∀ k, k < events.length → ∃ stk, runReaper pick st (events.take k) = some (stk, none)) ∧
    (events ≠ [] → ∃ stf, runReaper pick st events =
        some (stf, some (pickedCode pick (st.nonZeroDeaths ++
          events.filter (fun p => !p.2.success))))) := by
  induction events with
  | nil =>
    intro st _ _
    exact ⟨fun k hk => absurd hk (by simp), fun h => absurd rfl h⟩
  | cons ne rest ih =>
    intro st hnd hperm
    obtain ⟨n, e⟩ := ne
    have hn : n ∈ st.liveInvites := hperm.mem_iff.mp (by simp)
    have hrest : (rest.map Prod.fst).Perm (st.liveInvites.erase n) := by
      have h1 : st.liveInvites.Perm (n :: st.liveInvites.erase n) :=
        List.perm_cons_erase hn
      have h0 : (n :: rest.map Prod.fst).Perm st.liveInvites := by simpa using hperm
      exact (h0.trans h1).cons_inv
    set st1 : ReaperState :=
      { liveInvites := st.liveInvites.erase n,
        nonZeroDeaths :=
          if e.success then st.nonZeroDeaths
          else st.nonZeroDeaths ++ [(n, e)] } with hst1
    have hhandle : handleInviteAccepted pick st n e =
        (if st1.liveInvites.isEmpty then some (st1, some (pickedCode pick st1.nonZeroDeaths))
         else some (st1, none)) := by
      rw [handleInviteAccepted, if_pos hn]
    by_cases hre : rest = []
    · subst hre
      have hempty : st1.liveInvites = [] := by
        have h := hrest.symm
        simp only [List.map_nil, List.perm_nil] at h
        rw [hst1]
        exact h
      constructor
      · intro k hk
        have : k = 0 := by simp at hk; omega
        subst this
        exact ⟨st, rfl⟩
      · intro _
        refine ⟨st1, ?_⟩
        rw [runReaper, hhandle]
        rw [if_pos (by rw [hempty]; rfl)]
        simp only [Option.bind_some, optBind_some]
        have harg : (if e.success = true then st.nonZeroDeaths
              else st.nonZeroDeaths ++ [(n, e)]) =
            st.nonZeroDeaths ++ List.filter (fun p => !p.2.success) [(n, e)] := by
          by_cases hs : e.success
          · simp [hs]
          · simp [hs]
        show some (st1, some (pickedCode pick (if e.success = true then st.nonZeroDeaths
            else st.nonZeroDeaths ++ [(n, e)]))) = _
        rw [harg]
    · have hne1 : st1.liveInvites ≠ [] := by
        rw [hst1]
        simp only
        intro hc
        have := hrest
        rw [hc] at this
        have : rest.map Prod.fst = [] := this.eq_nil
        simp at this
        exact hre this
      have hnd1 : st1.liveInvites.Nodup := by
        rw [hst1]; exact hnd.erase n
      obtain ⟨iha, ihb⟩ := ih st1 hnd1 (by rw [hst1]; exact hrest)
      have hstep : runReaper pick st ((n, e) :: rest) = runReaper pick st1 rest := by
        rw [runReaper, hhandle, if_neg (by simpa [List.isEmpty_iff] using hne1)]
        rfl
      constructor
      · intro k hk
        match k with
        | 0 => exact ⟨st, rfl⟩
        | k' + 1 =>
          have hk' : k' < rest.length := by simp at hk; omega
          obtain ⟨stk, hstk⟩ := iha k' hk'
          refine ⟨stk, ?_⟩
          rw [List.take_succ_cons, runReaper, hhandle,
            if_neg (by simpa [List.isEmpty_iff] using hne1)]
          exact hstk
      · intro _
        obtain ⟨stf, hstf⟩ := ihb hre
        refine ⟨stf, ?_⟩
        rw [hstep, hstf]
        have harg : (if e.success = true then st.nonZeroDeaths
              else st.nonZeroDeaths ++ [(n, e)]) ++ rest.filter (fun p => !p.2.success) =
            st.nonZeroDeaths ++ List.filter (fun p => !p.2.success) ((n, e) :: rest) := by
          by_cases hs : e.success
          · simp [hs]
          · simp [hs]
        show some (stf, some (pickedCode pick ((if e.success = true then st.nonZeroDeaths
            else st.nonZeroDeaths ++ [(n, e)]) ++ rest.filter (fun p => !p.2.success)))) = _
        rw [harg]

/-- One admissible hash-iteration draw: the first collected entry. -/
def pickHead : List (String × ExitStat) → Option (String × ExitStat) := List.head?

theorem pickHead_valid : PickValid pickHead := by
  constructor
  · intro l
    cases l <;> simp [pickHead]
  · intro l x h
    cases l with
    | nil => simp [pickHead] at h
    | cons a t =>
      have ha : a = x := by simpa [pickHead] using h
      rw [← ha]
      exact List.mem_cons_self a t

/-- Another admissible hash-iteration draw: with at least two collected
entries, the iteration happens to yield the SECOND-collected one first. -/
def pickSecond : List (String × ExitStat) → Option (String × ExitStat)
  | [] => none
  | [x] => some x
  | _ :: y :: _ => some y

theorem pickSecond_valid : PickValid pickSecond := by
  constructor
  · intro l
    match l with
    | [] => simp [pickSecond]
    | [x] => simp [pickSecond]
    | a :: b :: t => simp [pickSecond]
  · intro l x h
    match l with
    | [] => simp [pickSecond] at h
    | [a] =>
      have ha : a = x := by simpa [pickSecond] using h
      rw [← ha]
      exact List.mem_cons_self a []
    | a :: b :: t =>
      have hb : b = x := by simpa [pickSecond] using h
      rw [← hb]
      exact List.mem_cons_of_mem a (List.mem_cons_self b t)

/-- **C5 (counterexample).** Two tasks die unsuccessfully, `exited 3`
collected first and `exited 5` second.  Under the admissible draw
`pickSecond` — a possible iteration order of the `non_zero_deaths` hash
map — the runtime exits with code `5`, while the code of the first
non-success in collection order is `3`: the code does not guarantee the
claim's "first non-success status in collection order". -/
theorem c5_grim_reaper_exit_counterexample :
    PickValid pickSecond ∧
    runReaper pickSecond (grimReaperStartNew ["a", "b"]).1
        [("a", ExitStat.exited 3), ("b", ExitStat.exited 5)] =
      some (⟨[], [("a", ExitStat.exited 3), ("b", ExitStat.exited 5)]⟩, some 5) ∧
    specFirstNonSuccessCode ([("a", ExitStat.exited 3),
        ("b", ExitStat.exited 5)].filter (fun p => !p.2.success)) = 3 ∧
    (5 : Int) ≠ 3 :=
  ⟨pickSecond_valid, by decide, by decide, by decide⟩

/-- **C5 (amended).** Started with a task-name → supervisor map, the grim
reaper sends every supervisor a `PermaDeathInvite` and terminates the
runtime only once an `InviteAccepted` has arrived from every name; the
process exit code is `0` when every reported status is a success and
otherwise the mapped code of SOME collected non-success status — the
entry `non_zero_deaths.iter().next()` happens to draw from the hash map,
not necessarily the first in collection order — and of THE non-success
status when exactly one was collected; the mapping is `exited(n) → n`
(for `n` in `i32` range), `other(n) → n`, `signaled(n) → n`,
`undetermined → 1`. -/
theorem c5_grim_reaper_exit_amended (names : List String)
    (events : List (String × ExitStat))
    (pick : List (String × ExitStat) → Option (String × ExitStat))
    (hpick : PickValid pick) (hnd : names.Nodup)
    (hperm : (events.map Prod.fst).Perm names) (hne : events ≠ []) :
    (grimReaperStartNew names).2 = names
    ∧ (∀ k, k < events.length →
        ∃ stk, runReaper pick (grimReaperStartNew names).1 (events.take k) =
          some (stk, none))
    ∧ (∃ stf, runReaper pick (grimReaperStartNew names).1 events =
        some (stf, some (pickedCode pick (events.filter (fun p => !p.2.success)))))
    ∧ ((∀ p ∈ events, p.2.success = true) →
        pickedCode pick (events.filter (fun p => !p.2.success)) = 0)
    ∧ (events.filter (fun p => !p.2.success) ≠ [] →
        ∃ x ∈ events.filter (fun p => !p.2.success),
          pickedCode pick (events.filter (fun p => !p.2.success)) = exitCode x.2)
    ∧ (∀ n s, events.filter (fun p => !p.2.success) = [(n, s)] →
        pickedCode pick (events.filter (fun p => !p.2.success)) = exitCode s)
    ∧ (∀ n : Nat, n < 2 ^ 31 → exitCode (.exited n) = (n : Int))
    ∧ (∀ z : Int, exitCode (.other z) = z)
    ∧ (∀ sig : Nat, exitCode (.signaled sig) = (sig : Int))
    ∧ exitCode .undetermined = 1 := by
  have h0 : (grimReaperStartNew names).1.liveInvites = names := rfl
  have h1 : (grimReaperStartNew names).1.nonZeroDeaths = [] := rfl
  obtain ⟨ha, hb⟩ := runReaper_aux pick events (grimReaperStartNew names).1
    (by rw [h0]; exact hnd) (by rw [h0]; exact hperm)
  refine ⟨rfl, ha, ?_, ?_, ?_, ?_, ?_, fun z => rfl, fun sig => rfl, rfl⟩
  · obtain ⟨stf, hstf⟩ := hb hne
    rw [h1] at hstf
    exact ⟨stf, by simpa using hstf⟩
  · intro hall
    have hfe : events.filter (fun p => !p.2.success) = [] := by
      rw [List.filter_eq_nil_iff]
      intro p hp
      simp [hall p hp]
    rw [hfe, pickedCode, (hpick.1 []).mpr rfl]
  · intro hne2
    have hsome : ∃ x, pick (events.filter (fun p => !p.2.success)) = some x := by
      cases hcp : pick (events.filter (fun p => !p.2.success)) with
      | none => exact absurd ((hpick.1 _).mp hcp) hne2
      | some x => exact ⟨x, rfl⟩
    obtain ⟨x, hx⟩ := hsome
    refine ⟨x, hpick.2 _ x hx, ?_⟩
    rw [pickedCode, hx]
  · intro n s hfe
    rw [pickedCode, hfe]
    cases hcp : pick [(n, s)] with
    | none =>
      have h := (hpick.1 _).mp hcp
      exact absurd h (by simp)
    | some x =>
      have hm : x = (n, s) := by simpa using hpick.2 _ x hcp
      rw [hm]
  · intro n hn
    rw [exitCode, u32AsI32]
    have hm : n % 2 ^ 32 = n := Nat.mod_eq_of_lt (by omega)
    simp only [hm]
    rw [if_pos (by omega)]

theorem c5_grim_reaper_exit_amended_witness :
    PickValid pickHead ∧
    (["a", "b"] : List String).Nodup ∧
    (([("a", ExitStat.exited 0), ("b", ExitStat.exited 3)].map Prod.fst).Perm ["a", "b"]) ∧
    ([("a", ExitStat.exited 0), ("b", ExitStat.exited 3)] ≠
      ([] : List (String × ExitStat))) ∧
    ∃ stf, runReaper pickHead (grimReaperStartNew ["a", "b"]).1
        [("a", ExitStat.exited 0), ("b", ExitStat.exited 3)] =
      some (stf, some (pickedCode pickHead ([("a", ExitStat.exited 0),
        ("b", ExitStat.exited 3)].filter (fun p => !p.2.success)))) := by
  refine ⟨pickHead_valid, by decide, by decide, by decide, ?_⟩
  exact (c5_grim_reaper_exit_amended ["a", "b"]
    [("a", ExitStat.exited 0), ("b", ExitStat.exited 3)] pickHead pickHead_valid
    (by decide) (by decide) (by decide)).2.2.1

/-! ### Pipe router and output-line handling
(`src/config/pipe.rs`, stdout loop of `CommandActor::reload`)

A compiled regex is opaque: a `PipeM` carries its match predicate
(`Regex::is_match`), its capture expansion for tab names
(`Captures::expand`) and its replacement for file paths
(`Regex::replace(line, path)`), together with the parsed redirection. -/

/-- `config::pipe::OutputRedirection`. -/
inductive OutputRedirection where
  | tab (name : String)
  | file (path : String)
  deriving DecidableEq, Repr

/-- A compiled `Pipe` of a task. -/
structure PipeM where
  isMatch : String → Bool
  expand : String → String
  replace : String → String
  redirection : OutputRedirection

/-- `PathBuf::join` (textual model). -/
def joinPath (cwd p : String) : String := cwd ++ "/" ++ p

/-- `path.starts_with("/")` (character-level model). -/
def strStartsWithSlash (s : String) : Bool :=
  match s.data with
  | '/' :: _ => true
  | _ => false

/-- `Path::parent().unwrap()` (character-level model: drop the last
component and its separator). -/
def parentDir (p : String) : String :=
  ⟨(((p.data.reverse.dropWhile (fun c => c ≠ '/')).drop 1).reverse)⟩

/-- Observable actions of the stdout loop for one line. -/
inductive LineEvent where
  | registerPanel (name : String)
  | output (panel : String) (line : String)
  | createDirAll (dir : String)
  | openAppend (path : String)
  | sendIgnorePath (path : String)
  | appendFile (path : String) (data : String)
  deriving DecidableEq, Repr

/-- `task_pipes.iter().find(|pipe| pipe.regex.is_match(&line))`. -/
def routeLine (pipes : List PipeM) (line : String) : Option PipeM :=
  pipes.find? (fun p => p.isMatch line)

/-- The body of the stdout loop for one line: find the first matching
pipe; a `Tab` redirection registers the (dynamically expanded) panel and
outputs to it; a `File` redirection expands the path, prefixes the
working directory when relative, creates the parent directories, opens
the file in append mode, sends `IgnorePath` to the watcher, and only then
appends the newline-terminated line; an unmatched line goes to the
task's own panel. -/
def handleLine (cwd taskName : String) (pipes : List PipeM) (line : String) :
    List LineEvent :=
  match routeLine pipes line with
  | some p =>
    match p.redirection with
    | .tab _ =>
      let tabName := p.expand line
      [.registerPanel tabName, .output tabName line]
    | .file _ =>
      let path0 := p.replace line
      let path := if strStartsWithSlash path0 then path0 else joinPath cwd path0
      [.createDirAll (parentDir path), .openAppend path,
       .sendIgnorePath path, .appendFile path (line ++ "\n")]
  | none => [.output taskName line]

theorem find?_eq_some_of_first {α : Type} (l : List α) (p : α → Bool) :
    ∀ (i : Nat) (hi : i < l.length), p (l.get ⟨i, hi⟩) = true →
    (∀ j (hj : j < i), p (l.get ⟨j, Nat.lt_trans hj hi⟩) = false) →
    l.find? p = some (l.get ⟨i, hi⟩) := by
  induction l with
  | nil => intro i hi; simp at hi
  | cons a t ih =>
    intro i hi hp hj
    match i with
    | 0 =>
      have hpa : p a = true := hp
      simp [List.find?_cons, hpa]
    | k + 1 =>
      have ha : p a = false := hj 0 (by omega)
      rw [List.find?]
      rw [ha]
      exact ih k (by simpa using hi) hp
        (fun j hjk => hj (j + 1) (by omega))

theorem find?_some_elim {α : Type} (l : List α) (p : α → Bool) (b : α) :
    l.find? p = some b →
    ∃ (i : Nat) (hi : i < l.length), l.get ⟨i, hi⟩ = b ∧ p b = true ∧
      ∀ j (hj : j < i), p (l.get ⟨j, Nat.lt_trans hj hi⟩) = false := by
  induction l with
  | nil => intro h; simp [List.find?] at h
  | cons a t ih =>
    intro h
    rw [List.find?] at h
    cases ha : p a with
    | true =>
      rw [ha] at h
      simp at h
      subst h
      exact ⟨0, by simp, rfl, ha, fun j hj => absurd hj (by omega)⟩
    | false =>
      rw [ha] at h
      simp only at h
      obtain ⟨i, hi, hget, hp, hjs⟩ := ih h
      refine ⟨i + 1, by simpa using Nat.succ_lt_succ hi, hget, hp, ?_⟩
      intro j hj
      match j with
      | 0 => exact ha
      | j' + 1 => exact hjs j' (by omega)

/-- First-match routing of the stdout loop, over an arbitrary compiled
pipe list: an unmatched line goes to the task's own panel, a matched line
to the redirection of the first entry of the list whose regex matches. -/
theorem routeLine_first_match (cwd taskName : String) (pipes : List PipeM) (line : String) :
    ((∀ p ∈ pipes, p.isMatch line = false) →
      routeLine pipes line = none ∧
      handleLine cwd taskName pipes line = [.output taskName line])
    ∧ (∀ (i : Nat) (hi : i < pipes.length),
        (pipes.get ⟨i, hi⟩).isMatch line = true →
        (∀ j (hj : j < i), (pipes.get ⟨j, Nat.lt_trans hj hi⟩).isMatch line = false) →
        routeLine pipes line = some (pipes.get ⟨i, hi⟩))
    ∧ (∀ p, routeLine pipes line = some p →
        (∃ (i : Nat) (hi : i < pipes.length), pipes.get ⟨i, hi⟩ = p ∧
          p.isMatch line = true ∧
          ∀ j (hj : j < i), (pipes.get ⟨j, Nat.lt_trans hj hi⟩).isMatch line = false)
        ∧ handleLine cwd taskName pipes line =
          (match p.redirection with
           | .tab _ => [.registerPanel (p.expand line), .output (p.expand line) line]
           | .file _ =>
             let path0 := p.replace line
             let path := if strStartsWithSlash path0 then path0 else joinPath cwd path0
             [.createDirAll (parentDir path), .openAppend path,
              .sendIgnorePath path, .appendFile path (line ++ "\n")])) := by
  refine ⟨?_, ?_, ?_⟩
  · intro hall
    have hnone : routeLine pipes line = none := by
      rw [routeLine, List.find?_eq_none]
      intro p hp
      simp [hall p hp]
    exact ⟨hnone, by rw [handleLine, hnone]⟩
  · intro i hi hp hj
    exact find?_eq_some_of_first pipes (fun p => p.isMatch line) i hi hp hj
  · intro p hsome
    refine ⟨find?_some_elim pipes (fun q => q.isMatch line) p hsome, ?_⟩
    rw [handleLine, hsome]

/-- `Config::get_pipes_map` for one task: compile every `(regex, target)`
entry of the task's `pipe` map into a `Pipe`.  `Task.pipe` is a
`std::collections::HashMap<String, String>` (`src/config/mod.rs:78`), so
`for (key, value) in task.pipe` visits the entries in hash-iteration
order: the compiled list is `iter.map compile` for SOME permutation
`iter` of the declared entries, not necessarily the declaration order. -/
def getTaskPipes (compile : String × String → PipeM)
    (iter : List (String × String)) : List PipeM :=
  iter.map compile

/-- **C6 (counterexample).** Two declared pipe entries whose regexes both
match the line `"ln"`, compiled to `Tab` redirections `A` (declared
first) and `B` (declared second).  When the pipe map's iteration order
reverses the declared order — an admissible order for a hash map — the
line is routed to the redirection of the SECOND-declared entry, not the
first-declared one: routing is not first-match "in the order the pipes
were declared". -/
theorem c6_first_match_routing_counterexample :
    ([("y", "B"), ("x", "A")] : List (String × String)).Perm [("x", "A"), ("y", "B")] ∧
    (routeLine (getTaskPipes (fun kv => PipeM.mk (fun _ => true) id id (.tab kv.2))
        [("y", "B"), ("x", "A")]) "ln").map PipeM.redirection =
      some (OutputRedirection.tab "B") ∧
    (routeLine (getTaskPipes (fun kv => PipeM.mk (fun _ => true) id id (.tab kv.2))
        [("x", "A"), ("y", "B")]) "ln").map PipeM.redirection =
      some (OutputRedirection.tab "A") ∧
    OutputRedirection.tab "B" ≠ OutputRedirection.tab "A" :=
  ⟨List.Perm.swap ("x", "A") ("y", "B") [], rfl, rfl, by decide⟩

/-- **C6 (amended).** For every task's pipe map and every output line
produced by its child: the compiled pipe list is the map's entries in
hash-iteration order — some permutation of the declared entries, not
necessarily the declaration order — and the line is routed to exactly
one destination: the redirection of the first entry of THAT list whose
regex matches the line, or the task's own default panel when no regex
matches. -/
theorem c6_first_match_routing_amended (cwd taskName : String)
    (compile : String × String → PipeM) (decl iter : List (String × String))
    (hperm : iter.Perm decl) (line : String) :
    (getTaskPipes compile iter).Perm (getTaskPipes compile decl)
    ∧ ((∀ p ∈ getTaskPipes compile iter, p.isMatch line = false) →
      routeLine (getTaskPipes compile iter) line = none ∧
      handleLine cwd taskName (getTaskPipes compile iter) line = [.output taskName line])
    ∧ (∀ (i : Nat) (hi : i < (getTaskPipes compile iter).length),
        ((getTaskPipes compile iter).get ⟨i, hi⟩).isMatch line = true →
        (∀ j (hj : j < i),
          ((getTaskPipes compile iter).get ⟨j, Nat.lt_trans hj hi⟩).isMatch line = false) →
        routeLine (getTaskPipes compile iter) line =
          some ((getTaskPipes compile iter).get ⟨i, hi⟩))
    ∧ (∀ p, routeLine (getTaskPipes compile iter) line = some p →
        (∃ (i : Nat) (hi : i < (getTaskPipes compile iter).length),
            (getTaskPipes compile iter).get ⟨i, hi⟩ = p ∧
          p.isMatch line = true ∧
          ∀ j (hj : j < i),
            ((getTaskPipes compile iter).get ⟨j, Nat.lt_trans hj hi⟩).isMatch line = false)
        ∧ handleLine cwd taskName (getTaskPipes compile iter) line =
          (match p.redirection with
           | .tab _ => [.registerPanel (p.expand line), .output (p.expand line) line]
           | .file _ =>
             let path0 := p.replace line
             let path := if strStartsWithSlash path0 then path0 else joinPath cwd path0
             [.createDirAll (parentDir path), .openAppend path,
              .sendIgnorePath path, .appendFile path (line ++ "\n")])) :=
  ⟨hperm.map compile,
   routeLine_first_match cwd taskName (getTaskPipes compile iter) line⟩

theorem c6_first_match_routing_amended_witness :
    ([("r", "t")] : List (String × String)).Perm [("r", "t")] ∧
    ((getTaskPipes (fun kv => PipeM.mk (fun _ => true) id id (.tab kv.2))
        [("r", "t")]).get ⟨0, Nat.zero_lt_one⟩).isMatch "ln" = true ∧
    routeLine (getTaskPipes (fun kv => PipeM.mk (fun _ => true) id id (.tab kv.2))
        [("r", "t")]) "ln" =
      some ((getTaskPipes (fun kv => PipeM.mk (fun _ => true) id id (.tab kv.2))
        [("r", "t")]).get ⟨0, Nat.zero_lt_one⟩) := by
  refine ⟨List.Perm.refl _, rfl, ?_⟩
  exact (c6_first_match_routing_amended "cwd" "task"
    (fun kv => PipeM.mk (fun _ => true) id id (.tab kv.2)) [("r", "t")] [("r", "t")]
    (List.Perm.refl _) "ln").2.2.1 0 Nat.zero_lt_one rfl
    (fun j hj => absurd hj (Nat.not_lt_zero j))

/-! ### Watcher (`src/actors/watcher.rs`)

`WatcherActor` keeps the registered `WatchGlob` subscriptions and the
dynamic ignore set (`HashSet<PathBuf>`, modelled as a dedup list).
Glob sets are opaque match predicates; supervisor addresses are names. -/

/-- A `WatchGlob` subscription. -/
structure WatchGlobM where
  command : String
  globOn : String → Bool
  globOff : String → Bool

/-- Watcher state: subscriptions and the dynamic ignore set. -/
structure WatcherState where
  globs : List WatchGlobM
  ignore : List String

/-- Messages handled by the watcher actor. -/
inductive WatcherMsg where
  | watchGlob (g : WatchGlobM)
  | watchEvent (paths : List String)
  | ignorePath (path : String)

/-- `HashSet::insert`. -/
def insertSet (s : List String) (x : String) : List String :=
  if x ∈ s then s else s ++ [x]

/-- One watcher mailbox step: `Handler<WatchGlob>` pushes the
subscription, `Handler<IgnorePath>` inserts the path into the ignore set,
`Handler<WatchEvent>` filters each subscription's paths through
ignore-set membership and the on/off glob sets and emits a
`Reload::Watch` with the comma-joined paths when any survive. -/
def watcherStep (st : WatcherState) (msg : WatcherMsg) :
    WatcherState × List (String × String) :=
  match msg with
  | .watchGlob g => ({ st with globs := st.globs ++ [g] }, [])
  | .ignorePath p => ({ st with ignore := insertSet st.ignore p }, [])
  | .watchEvent paths =>
    (st, st.globs.filterMap (fun g =>
      let ps := paths.filter (fun path =>
        (!st.ignore.contains path) && g.globOn path && !g.globOff path)
      if ps.isEmpty then none
      else some (g.command, String.intercalate ", " ps)))

/-- The fully expanded target path of a `File` pipe for a line:
`regex.replace(line, path)`, prefixed by the working directory when the
result is relative. -/
def expandedPath (cwd : String) (p : PipeM) (line : String) : String :=
  let path0 := p.replace line
  if strStartsWithSlash path0 then path0 else joinPath cwd path0

theorem handleLine_eq_none (cwd taskName : String) (pipes : List PipeM) (line : String)
    (h : routeLine pipes line = none) :
    handleLine cwd taskName pipes line = [.output taskName line] := by
  unfold handleLine; simp only [h]

theorem handleLine_eq_tab (cwd taskName : String) (pipes : List PipeM) (line : String)
    (p : PipeM) (name : String) (h : routeLine pipes line = some p)
    (hr : p.redirection = .tab name) :
    handleLine cwd taskName pipes line =
      [.registerPanel (p.expand line), .output (p.expand line) line] := by
  unfold handleLine; simp only [h, hr]

theorem handleLine_eq_file (cwd taskName : String) (pipes : List PipeM) (line : String)
    (p : PipeM) (fpath : String) (h : routeLine pipes line = some p)
    (hr : p.redirection = .file fpath) :
    handleLine cwd taskName pipes line =
      [.createDirAll (parentDir (expandedPath cwd p line)),
       .openAppend (expandedPath cwd p line),
       .sendIgnorePath (expandedPath cwd p line),
       .appendFile (expandedPath cwd p line) (line ++ "\n")] := by
  unfold handleLine expandedPath; simp only [h, hr]

/-- **C7.** For every line redirected by a `File` pipe, the fully
expanded target path is sent to the watcher as an `IgnorePath` message
before any byte of the line is appended to the file: in the event list of
the stdout loop, every `appendFile path _` is preceded by a
`sendIgnorePath path` for the same path.  On the watcher side,
`Handler<IgnorePath>` inserts the path into the ignore set, and no
watcher handler ever removes a path from that set. -/
theorem c7_ignore_path_before_write :
    (∀ (cwd taskName : String) (pipes : List PipeM) (line path data : String) (j : Nat),
      (handleLine cwd taskName pipes line).get? j = some (.appendFile path data) →
      ∃ i, i < j ∧
        (handleLine cwd taskName pipes line).get? i = some (.sendIgnorePath path))
    ∧ (∀ (st : WatcherState) (p : String),
        p ∈ (watcherStep st (.ignorePath p)).1.ignore)
    ∧ (∀ (st : WatcherState) (msg : WatcherMsg) (q : String),
        q ∈ st.ignore → q ∈ (watcherStep st msg).1.ignore) := by
  refine ⟨?_, ?_, ?_⟩
  · intro cwd taskName pipes line path data j hev
    cases hfind : routeLine pipes line with
    | none =>
      rw [handleLine_eq_none cwd taskName pipes line hfind] at hev
      match j with
      | 0 => simp at hev
      | n + 1 => simp at hev
    | some p =>
      cases hred : p.redirection with
      | tab name =>
        rw [handleLine_eq_tab cwd taskName pipes line p name hfind hred] at hev
        match j with
        | 0 => simp at hev
        | 1 => simp at hev
        | n + 2 => simp at hev
      | file fpath =>
        rw [handleLine_eq_file cwd taskName pipes line p fpath hfind hred] at hev ⊢
        match j with
        | 0 => simp at hev
        | 1 => simp at hev
        | 2 => simp at hev
        | 3 =>
          have hpath : expandedPath cwd p line = path := by
            simp only [List.get?] at hev
            simp at hev
            exact hev.1
          exact ⟨2, by omega, by simp [List.get?, hpath]⟩
        | n + 4 => simp at hev
  · intro st p
    rw [watcherStep]
    simp only
    rw [insertSet]
    by_cases hp : p ∈ st.ignore
    · simp [hp]
    · simp [hp]
  · intro st msg q hq
    match msg with
    | .watchGlob g => exact hq
    | .watchEvent paths => exact hq
    | .ignorePath p =>
      rw [watcherStep]
      simp only
      rw [insertSet]
      by_cases hp : p ∈ st.ignore
      · simpa [hp] using hq
      · simp [hp]
        exact Or.inl hq

theorem c7_ignore_path_before_write_witness :
    (handleLine "/w" "t" [PipeM.mk (fun _ => true) id (fun _ => "/w/out.log")
        (.file "/w/out.log")] "hello").get? 3 =
      some (.appendFile "/w/out.log" ("hello" ++ "\n")) ∧
    ∃ i, i < 3 ∧
      (handleLine "/w" "t" [PipeM.mk (fun _ => true) id (fun _ => "/w/out.log")
        (.file "/w/out.log")] "hello").get? i = some (.sendIgnorePath "/w/out.log") := by
  refine ⟨by decide, ?_⟩
  exact c7_ignore_path_before_write.1 "/w" "t"
    [PipeM.mk (fun _ => true) id (fun _ => "/w/out.log") (.file "/w/out.log")]
    "hello" "/w/out.log" ("hello" ++ "\n") 3 (by decide)

/-! ### Environment resolution (`CommandActorsBuilder::build`, command.rs 208-239)

The external `lade_sdk` crate supplies `resolve` (variable interpolation)
and `hydrate` (secret hydration); both are modelled from the spec. -/

/-- Word character of the interpolation regex `\$\{?(\w+)\}?`. -/
def isWordChar (c : Char) : Bool := c.isAlphanum || c = '_'

/-- Modelled from the spec: one scan step of `lade_sdk::resolve`'s
variable interpolation, regex `\$\{?(\w+)\}?`, where an unresolved
variable expands to the empty string.  The fuel starts at the character
count; every step consumes at least one character, so it never runs out:
on exhaustion the remaining characters are kept. -/
def interpGo (env : List (String × String)) : Nat → List Char → List Char
  | _, [] => []
  | 0, l => l
  | fuel + 1, '$' :: rest =>
    let braced := match rest with | '{' :: _ => true | _ => false
    let rest1 := if braced then rest.drop 1 else rest
    let name := rest1.takeWhile isWordChar
    if name.isEmpty then
      '$' :: interpGo env fuel rest
    else
      let after := rest1.drop name.length
      let after1 := match after with | '}' :: t => t | _ => after
      ((lookupA env ⟨name⟩).getD "").data ++ interpGo env fuel after1
  | fuel + 1, c :: rest => c :: interpGo env fuel rest

/-- Modelled from the spec: `lade_sdk::resolve` interpolates every value
of the map against the given environment. -/
def resolveEnv (vals env : List (String × String)) : List (String × String) :=
  vals.map (fun kv => (kv.1, ⟨interpGo env kv.2.data.length kv.2.data⟩))

/-- Modelled from the spec: `lade_sdk::hydrate` is external secret
hydration, out of scope; modelled as the identity on the environment. -/
def hydrate (env : List (String × String)) : List (String × String) := env

/-- `v.replace("\\n", "\n")` of the env-file values. -/
def unescapeChars : List Char → List Char
  | '\\' :: 'n' :: rest => '\n' :: unescapeChars rest
  | c :: rest => c :: unescapeChars rest
  | [] => []

/-- Newline unescaping of a parsed env-file value. -/
def unescapeNewlines (s : String) : String := ⟨unescapeChars s.data⟩

/-- `shared_env`: the process environment extended with the config-level
shared env interpolated against it, then hydrated. -/
def sharedEnvOf (procEnv configEnv : List (String × String)) : List (String × String) :=
  hydrate (extendA procEnv (resolveEnv configEnv procEnv))

/-- The task-level environment: each env_file's parsed, `\n`-unescaped
bindings interpolated against `shared_env` and merged in file order,
extended with the task's inline env interpolated against `shared_env`,
then hydrated. -/
def taskLevelEnv (procEnv configEnv : List (String × String))
    (envFiles : List (List (String × String))) (taskEnv : List (String × String)) :
    List (String × String) :=
  let shared := sharedEnvOf procEnv configEnv
  hydrate (extendA
    (envFiles.foldl (fun e vals =>
      extendA e (resolveEnv (vals.map (fun kv => (kv.1, unescapeNewlines kv.2))) shared)) [])
    (resolveEnv taskEnv shared))

/-- The final `self.env` of the supervisor: the task-level environment
extended with `shared_env` (`env.extend(shared_env.clone())`,
command.rs line 239). -/
def buildTaskEnv (procEnv configEnv : List (String × String))
    (envFiles : List (List (String × String))) (taskEnv : List (String × String)) :
    List (String × String) :=
  extendA (taskLevelEnv procEnv configEnv envFiles taskEnv) (sharedEnvOf procEnv configEnv)

/-- The environment of the spawned child: the process environment at
spawn time extended with `self.env` (`Exec::env_extend`). -/
def childEnv (procEnv configEnv : List (String × String))
    (envFiles : List (List (String × String))) (taskEnv : List (String × String)) :
    List (String × String) :=
  extendA procEnv (buildTaskEnv procEnv configEnv envFiles taskEnv)

theorem lookupA_none_of_not_mem {β : Type} (n : List (String × β)) (k : String) :
    k ∉ n.map Prod.fst → lookupA n k = none := by
  induction n with
  | nil => intro _; rfl
  | cons p t ih =>
    intro h
    rw [lookupA_cons]
    rw [if_neg (fun hh => h (List.mem_cons.mpr (Or.inl hh.symm)))]
    exact ih (fun hh => h (List.mem_cons.mpr (Or.inr hh)))

theorem extendA_cons {β : Type} (m : List (String × β)) (p : String × β)
    (t : List (String × β)) :
    extendA m (p :: t) = extendA (setA m p.1 p.2) t := rfl

theorem lookupA_extendA_of_none {β : Type} (n : List (String × β)) :
    ∀ (m : List (String × β)) (k : String), lookupA n k = none →
    lookupA (extendA m n) k = lookupA m k := by
  induction n with
  | nil => intro m k _; rfl
  | cons p t ih =>
    intro m k hn
    rw [lookupA_cons] at hn
    by_cases hp : p.1 = k
    · rw [if_pos hp] at hn; cases hn
    · rw [if_neg hp] at hn
      rw [extendA_cons, ih _ k hn, lookupA_setA, if_neg (fun hh => hp hh.symm)]

theorem lookupA_extendA_none_base {β : Type} (n : List (String × β)) :
    ∀ (m : List (String × β)) (k : String), lookupA (extendA m n) k = none →
    lookupA m k = none := by
  induction n with
  | nil => intro m k h; exact h
  | cons p t ih =>
    intro m k h
    rw [extendA_cons] at h
    have hset := ih _ k h
    rw [lookupA_setA] at hset
    by_cases hp : k = p.1
    · rw [if_pos hp] at hset; cases hset
    · rwa [if_neg hp] at hset

theorem lookupA_extendA_of_some {β : Type} (n : List (String × β)) :
    ∀ (m : List (String × β)) (k : String) (v : β),
    (n.map Prod.fst).Nodup → lookupA n k = some v →
    lookupA (extendA m n) k = some v := by
  induction n with
  | nil => intro m k v _ h; cases h
  | cons p t ih =>
    intro m k v hnd hn
    rw [lookupA_cons] at hn
    rw [List.map_cons] at hnd
    have hnd2 := List.nodup_cons.mp hnd
    by_cases hp : p.1 = k
    · rw [if_pos hp] at hn
      cases hn
      have ht : lookupA t k = none := lookupA_none_of_not_mem t k (hp ▸ hnd2.1)
      rw [extendA_cons, lookupA_extendA_of_none t _ k ht, lookupA_setA, if_pos hp.symm]
    · rw [if_neg hp] at hn
      rw [extendA_cons]
      exact ih _ k v hnd2.2 hn

theorem setA_keys_nodup {β : Type} (m : List (String × β)) (k : String) (v : β)
    (h : (m.map Prod.fst).Nodup) : ((setA m k v).map Prod.fst).Nodup := by
  rw [setA]
  rw [List.map_append]
  apply List.Nodup.append
  · exact (List.Sublist.map Prod.fst (List.filter_sublist m)).nodup h
  · simp
  · intro a ha hb
    simp at hb
    subst hb
    simp [eraseA] at ha

theorem extendA_keys_nodup {β : Type} (n : List (String × β)) :
    ∀ (m : List (String × β)), (m.map Prod.fst).Nodup →
    ((extendA m n).map Prod.fst).Nodup := by
  induction n with
  | nil => intro m h; exact h
  | cons p t ih =>
    intro m h
    rw [extendA_cons]
    exact ih _ (setA_keys_nodup m p.1 p.2 h)

theorem foldl_extendA_keys_nodup (shared : List (String × String))
    (envFiles : List (List (String × String))) :
    ∀ base : List (String × String), (base.map Prod.fst).Nodup →
    ((envFiles.foldl (fun e vals =>
      extendA e (resolveEnv (vals.map (fun kv => (kv.1, unescapeNewlines kv.2))) shared))
        base).map Prod.fst).Nodup := by
  induction envFiles with
  | nil => intro base h; exact h
  | cons f t ih => intro base h; exact ih _ (extendA_keys_nodup _ base h)

theorem taskLevelEnv_keys_nodup (procEnv configEnv : List (String × String))
    (envFiles : List (List (String × String))) (taskEnv : List (String × String)) :
    ((taskLevelEnv procEnv configEnv envFiles taskEnv).map Prod.fst).Nodup := by
  rw [taskLevelEnv, hydrate]
  exact extendA_keys_nodup _ _
    (foldl_extendA_keys_nodup (sharedEnvOf procEnv configEnv) envFiles [] (by simp))

/-- **C2 counterexample.** With an empty process environment, shared env
`{K := "shared"}` and inline task env `{K := "task"}`, the child receives
`K = "shared"`: the shared/process environment, not the task-level value,
wins the conflict (`env.extend(shared_env.clone())` runs last). -/
theorem c2_env_priority_counterexample :
    lookupA (childEnv [] [("K", "shared")] [] [("K", "task")]) "K" = some "shared" ∧
    some ("shared" : String) ≠ some ("task" : String) := by
  constructor
  · rfl
  · decide

/-- **C2 (amended).** The child environment is built from (in increasing
priority) the env_file contents (parsed as dotenv with `\n` unescaping,
interpolated against the shared env), the task's inline env (interpolated
likewise), and finally the shared environment — the process environment
at startup extended with the interpolated config-level shared env.
Consequently, for any key defined in the shared/process environment, the
child receives the shared value; a task-level (env_file or inline) value
reaches the child only for keys absent from the shared environment. -/
theorem c2_env_priority_amended (procEnv configEnv : List (String × String))
    (envFiles : List (List (String × String))) (taskEnv : List (String × String))
    (hnd : (procEnv.map Prod.fst).Nodup) (k : String) :
    (∀ v, lookupA (sharedEnvOf procEnv configEnv) k = some v →
      lookupA (childEnv procEnv configEnv envFiles taskEnv) k = some v)
    ∧ (lookupA (sharedEnvOf procEnv configEnv) k = none →
      lookupA (childEnv procEnv configEnv envFiles taskEnv) k =
        lookupA (taskLevelEnv procEnv configEnv envFiles taskEnv) k) := by
  have hsharednd : ((sharedEnvOf procEnv configEnv).map Prod.fst).Nodup := by
    rw [sharedEnvOf, hydrate]
    exact extendA_keys_nodup _ procEnv hnd
  have htasknd := taskLevelEnv_keys_nodup procEnv configEnv envFiles taskEnv
  have hfinalnd : ((buildTaskEnv procEnv configEnv envFiles taskEnv).map Prod.fst).Nodup := by
    rw [buildTaskEnv]
    exact extendA_keys_nodup _ _ htasknd
  constructor
  · intro v hv
    have hfinal : lookupA (buildTaskEnv procEnv configEnv envFiles taskEnv) k = some v := by
      rw [buildTaskEnv]
      exact lookupA_extendA_of_some _ _ k v hsharednd hv
    rw [childEnv]
    exact lookupA_extendA_of_some _ procEnv k v hfinalnd hfinal
  · intro hnone
    have hfinal : lookupA (buildTaskEnv procEnv configEnv envFiles taskEnv) k =
        lookupA (taskLevelEnv procEnv configEnv envFiles taskEnv) k := by
      rw [buildTaskEnv]
      exact lookupA_extendA_of_none _ _ k hnone
    cases htask : lookupA (taskLevelEnv procEnv configEnv envFiles taskEnv) k with
    | some w =>
      rw [htask] at hfinal
      rw [childEnv]
      exact lookupA_extendA_of_some _ procEnv k w hfinalnd hfinal
    | none =>
      rw [htask] at hfinal
      have hproc : lookupA procEnv k = none := by
        have h1 : lookupA (extendA procEnv (resolveEnv configEnv procEnv)) k = none := by
          rw [sharedEnvOf, hydrate] at hnone
          exact hnone
        exact lookupA_extendA_none_base _ procEnv k h1
      rw [childEnv, lookupA_extendA_of_none _ procEnv k hfinal, hproc]

theorem c2_env_priority_amended_witness :
    ((([("P", "1")] : List (String × String)).map Prod.fst).Nodup) ∧
    (∀ v, lookupA (sharedEnvOf [("P", "1")] [("K", "shared")]) "K" = some v →
      lookupA (childEnv [("P", "1")] [("K", "shared")] [] [("K", "task")]) "K" = some v) := by
  refine ⟨by decide, ?_⟩
  exact (c2_env_priority_amended [("P", "1")] [("K", "shared")] [] [("K", "task")]
    (by decide) "K").1

/-! ### Config and DAG (`src/config/mod.rs`)

`Config.ops` is an `IndexMap<String, Task>`, embedded as an
insertion-ordered association list with `depends_on` already resolved
from its `Lift`.  `get_dependencies` unwraps a map lookup; the embedding
defaults a missing name to `[]` and the theorems assume every name they
feed it exists (the `AllDepsExist` validation that `build_dag` performs).
The worklist loops (`get_all_dependencies`, `simplify_dependencies`) are
fuelled; `none` models divergence.  A Rust `Vec` worklist pops from the
end and is represented reversed, so `pop` is taking the head and
`extend(ds)` is prepending `ds.reverse`. -/

/-- The fields of a `Task` used by the config operations. -/
structure TaskC where
  dependsOn : List String
  deriving DecidableEq, Repr

/-- A parsed `Config`. -/
structure ConfigC where
  ops : List (String × TaskC)
  deriving DecidableEq, Repr

/-- `Config::get_dependencies` (the `unwrap` defaulted to `[]`). -/
def ConfigC.getDependencies (c : ConfigC) (jobName : String) : List String :=
  ((lookupA c.ops jobName).map TaskC.dependsOn).getD []

/-- Every name in any `depends_on` list is a key of the map. -/
def AllDepsExist (c : ConfigC) : Prop :=
  ∀ kv ∈ c.ops, ∀ d ∈ kv.2.dependsOn, (lookupA c.ops d).isSome

instance (c : ConfigC) : Decidable (AllDepsExist c) := by
  unfold AllDepsExist; infer_instance

/-- Worklist loop of `Config::get_all_dependencies` (worklist reversed,
fuelled). -/
def getAllDepsAux (c : ConfigC) : Nat → List String → List String → Option (List String)
  | _, [], acc => some acc
  | 0, _ :: _, _ => none
  | fuel + 1, j :: work, acc =>
    getAllDepsAux c fuel ((c.getDependencies j).reverse ++ work) (acc ++ [j])

/-- `Config::get_all_dependencies`: transitive dependencies of a list of
jobs, in the worklist's pop order. -/
def ConfigC.getAllDependencies (c : ConfigC) (fuel : Nat) (jobs : List String) :
    Option (List String) :=
  getAllDepsAux c fuel ((jobs.map c.getDependencies).flatten).reverse []

/-- Direct dependency: `b` is in `a`'s `depends_on`. -/
def depStep (c : ConfigC) (a b : String) : Prop := b ∈ c.getDependencies a

/-- `b` is a transitive dependency of `a`. -/
def Reaches (c : ConfigC) (a b : String) : Prop := Relation.TransGen (depStep c) a b

/-- Acyclicity of the dependency graph: the "is a direct dependency of"
relation is well-founded. -/
def Acyclic (c : ConfigC) : Prop := WellFounded (fun a b => depStep c b a)

/-- Dependency validation of `Config::build_dag` over one task's list:
self-dependency, then unknown name, in source order. -/
def checkDepsFor (c : ConfigC) (opName : String) : List String → Except String Unit
  | [] => .ok ()
  | d :: rest =>
    if opName = d then .error ("dependency cannot be recursive in " ++ opName)
    else if (lookupA c.ops d).isNone then .error (d ++ " in op " ++ opName)
    else checkDepsFor c opName rest

/-- Dependency validation of `Config::build_dag` over all tasks. -/
def checkAllDeps (c : ConfigC) : List (String × TaskC) → Except String Unit
  | [] => .ok ()
  | (name, t) :: rest =>
    match checkDepsFor c name t.dependsOn with
    | .error e => .error e
    | .ok () => checkAllDeps c rest

/-- The topological-extraction loop of `Config::build_dag`: repeatedly
move every polled task whose dependencies are already emitted into
`order`; fail with the cycle message when none can move. -/
def topoLoop (c : ConfigC) (order poll : List String) : Except String (List String) :=
  match hp : poll with
  | [] => .ok order
  | _ :: _ =>
    let part := poll.partition (fun item =>
      (c.getDependencies item).all (fun p => order.contains p))
    if hs : part.1.isEmpty then
      .error ("cycle detected with one of " ++ String.intercalate ", " part.2)
    else
      topoLoop c (order ++ part.1) part.2
termination_by poll.length
decreasing_by
  rw [← hp]
  simp only [List.partition_eq_filter_filter, part] at hs
  simp only [List.partition_eq_filter_filter]
  rw [List.length_filter_lt_length_iff_exists]
  rw [List.isEmpty_iff, List.filter_eq_nil_iff] at hs
  push_neg at hs
  obtain ⟨x, hx, hpx⟩ := hs
  refine ⟨x, hx, ?_⟩
  simp only [Function.comp]
  simp [hpx]
  intro y hy
  have := List.all_eq_true.mp hpx y hy
  simpa using this

/-- `Config::build_dag`: validate, topologically order, then emit, in
reverse topological order, each task with the list of tasks that declare
it in their `depends_on`. -/
def ConfigC.buildDag (c : ConfigC) : Except String (List (String × List String)) :=
  match checkAllDeps c c.ops with
  | .error e => .error e
  | .ok () =>
    match topoLoop c [] (c.ops.map Prod.fst) with
    | .error e => .error e
    | .ok order =>
      .ok ((order.map (fun item =>
        (item, (c.ops.filter (fun kv => kv.2.dependsOn.contains item)).map Prod.fst))).reverse)

theorem lookupA_mem {β : Type} (l : List (String × β)) (k : String) (v : β) :
    lookupA l k = some v → (k, v) ∈ l := by
  induction l with
  | nil => intro h; cases h
  | cons p t ih =>
    intro h
    rw [lookupA_cons] at h
    by_cases hp : p.1 = k
    · rw [if_pos hp] at h
      cases h
      have hkp : (k, p.2) = p := by
        obtain ⟨a, b⟩ := p
        simp only at hp ⊢
        simp [hp]
      rw [hkp]
      exact List.mem_cons_self p t
    · rw [if_neg hp] at h
      exact List.mem_cons.mpr (Or.inr (ih h))

theorem isSome_mem_keys {β : Type} (l : List (String × β)) (k : String) :
    (lookupA l k).isSome → k ∈ l.map Prod.fst := by
  intro h
  cases hl : lookupA l k with
  | none => rw [hl] at h; cases h
  | some v => exact List.mem_map.mpr ⟨(k, v), lookupA_mem l k v hl, rfl⟩

theorem mem_keys_isSome {β : Type} (l : List (String × β)) (k : String) :
    k ∈ l.map Prod.fst → (lookupA l k).isSome := by
  induction l with
  | nil => intro h; cases h
  | cons p t ih =>
    intro h
    rw [lookupA_cons]
    by_cases hp : p.1 = k
    · rw [if_pos hp]; rfl
    · rw [if_neg hp]
      apply ih
      simp at h
      rcases h with h1 | h2
      · exact absurd h1.symm hp
      · simp
        exact h2

/-- In `order`, every task's dependencies occur strictly earlier. -/
def DepsEarlier (c : ConfigC) (order : List String) : Prop :=
  ∀ l1 t l2, order = l1 ++ t :: l2 → ∀ d ∈ c.getDependencies t, d ∈ l1

theorem depsEarlier_nil (c : ConfigC) : DepsEarlier c [] := by
  intro l1 t l2 h
  cases l1 <;> simp at h

theorem depsEarlier_mem_closed (c : ConfigC) (order : List String)
    (h : DepsEarlier c order) (t : String) (ht : t ∈ order) :
    ∀ d ∈ c.getDependencies t, d ∈ order := by
  intro d hd
  obtain ⟨l1, l2, hsplit⟩ := List.append_of_mem ht
  have := h l1 t l2 hsplit d hd
  rw [hsplit]
  exact List.mem_append.mpr (Or.inl this)

theorem depsEarlier_append (c : ConfigC) (order new : List String)
    (h : DepsEarlier c order)
    (hnew : ∀ s ∈ new, ∀ d ∈ c.getDependencies s, d ∈ order) :
    DepsEarlier c (order ++ new) := by
  intro l1 t l2 hsplit d hd
  rcases List.append_eq_append_iff.mp hsplit with ⟨a, ha1, ha2⟩ | ⟨b, hb1, hb2⟩
  · -- l1 = order ++ a and new = a ++ t :: l2 : t is one of the new elements
    have ht : t ∈ new := by rw [ha2]; simp
    have := hnew t ht d hd
    rw [ha1]
    exact List.mem_append.mpr (Or.inl this)
  · -- order = l1 ++ b and t :: l2 = b ++ new
    match b, hb2 with
    | [], hb2 =>
      have hnew2 : new = t :: l2 := by simpa using hb2.symm
      have ht : t ∈ new := by rw [hnew2]; simp
      have := hnew t ht d hd
      rw [List.append_nil] at hb1
      rw [← hb1]
      exact this
    | b0 :: bt, hb2 =>
      have hb0 : b0 = t := by
        have := congrArg List.head? hb2
        simp at this
        exact this.symm
      subst hb0
      exact h l1 b0 bt hb1 d hd

theorem containsStr_iff (l : List String) (x : String) : l.contains x = true ↔ x ∈ l := by
  induction l with
  | nil => simp
  | cons a t ih => simp [List.contains_cons, ih, Or.comm]

theorem topoLoop_cons (c : ConfigC) (order : List String) (p0 : String) (pt : List String) :
    topoLoop c order (p0 :: pt) =
      (if ((p0 :: pt).partition (fun item =>
          (c.getDependencies item).all (fun p => order.contains p))).1.isEmpty then
        .error ("cycle detected with one of " ++ String.intercalate ", "
          ((p0 :: pt).partition (fun item =>
            (c.getDependencies item).all (fun p => order.contains p))).2)
      else topoLoop c
        (order ++ ((p0 :: pt).partition (fun item =>
          (c.getDependencies item).all (fun p => order.contains p))).1)
        ((p0 :: pt).partition (fun item =>
          (c.getDependencies item).all (fun p => order.contains p))).2) := by
  rw [topoLoop]
  rfl

theorem topoLoop_ok (c : ConfigC) (hacyc : Acyclic c) (hex : AllDepsExist c) :
    ∀ (n : Nat) (order poll : List String), poll.length ≤ n →
    (order ++ poll).Perm (c.ops.map Prod.fst) →
    DepsEarlier c order →
    ∃ orderF, topoLoop c order poll = .ok orderF ∧
      orderF.Perm (c.ops.map Prod.fst) ∧ DepsEarlier c orderF := by
  intro n
  induction n with
  | zero =>
    intro order poll hlen hperm hde
    have hpoll : poll = [] := List.length_eq_zero.mp (by omega)
    subst hpoll
    rw [topoLoop]
    exact ⟨order, rfl, by simpa using hperm, hde⟩
  | succ n ih =>
    intro order poll hlen hperm hde
    match poll with
    | [] =>
      rw [topoLoop]
      exact ⟨order, rfl, by simpa using hperm, hde⟩
    | p0 :: pt =>
      have hne : ({x | x ∈ p0 :: pt} : Set String).Nonempty := ⟨p0, by simp⟩
      obtain ⟨m, hm, hmin⟩ := hacyc.has_min _ hne
      have hm' : m ∈ p0 :: pt := hm
      have hfm : ((c.getDependencies m).all (fun p => order.contains p)) = true := by
        rw [List.all_eq_true]
        intro d hd
        have hmkeys : m ∈ c.ops.map Prod.fst :=
          hperm.mem_iff.mp (List.mem_append.mpr (Or.inr hm'))
        cases hl : lookupA c.ops m with
        | none =>
          have := mem_keys_isSome c.ops m hmkeys
          rw [hl] at this
          cases this
        | some task =>
          have hdeps : c.getDependencies m = task.dependsOn := by
            rw [ConfigC.getDependencies, hl]; rfl
          have hmem : (m, task) ∈ c.ops := lookupA_mem _ _ _ hl
          have hds : (lookupA c.ops d).isSome := hex (m, task) hmem d (hdeps ▸ hd)
          have hdkeys : d ∈ c.ops.map Prod.fst := isSome_mem_keys _ _ hds
          rcases List.mem_append.mp (hperm.mem_iff.mpr hdkeys) with hdo | hdp
          · exact (containsStr_iff order d).mpr hdo
          · exact absurd hd (by
              have := hmin d hdp
              rw [depStep] at this
              exact this)
      have hpart :
          ((p0 :: pt).partition (fun item =>
            (c.getDependencies item).all (fun p => order.contains p))) =
          (((p0 :: pt).filter (fun item =>
            (c.getDependencies item).all (fun p => order.contains p))),
           ((p0 :: pt).filter (fun item =>
            !(c.getDependencies item).all (fun p => order.contains p)))) :=
        List.partition_eq_filter_filter _ _
      have hm1 : m ∈ (p0 :: pt).filter (fun item =>
          (c.getDependencies item).all (fun p => order.contains p)) :=
        List.mem_filter.mpr ⟨hm', hfm⟩
      have hnemp : ¬ ((p0 :: pt).filter (fun item =>
          (c.getDependencies item).all (fun p => order.contains p))).isEmpty = true := by
        rw [List.isEmpty_iff]
        intro hc
        rw [hc] at hm1
        cases hm1
      rw [topoLoop_cons, hpart]
      simp only
      rw [if_neg hnemp]
      have hlen2 : ((p0 :: pt).filter (fun item =>
          !(c.getDependencies item).all (fun p => order.contains p))).length ≤ n := by
        have hlt : ((p0 :: pt).filter (fun item =>
            !(c.getDependencies item).all (fun p => order.contains p))).length <
            (p0 :: pt).length := by
          rw [List.length_filter_lt_length_iff_exists]
          refine ⟨m, hm', ?_⟩
          have hms : ∀ x ∈ c.getDependencies m, x ∈ order := by
            intro x hx
            rw [List.all_eq_true] at hfm
            exact (containsStr_iff order x).mp (hfm x hx)
          simp
          exact hms
        simp at hlen hlt ⊢
        omega
      have hperm2 : ((order ++ (p0 :: pt).filter (fun item =>
            (c.getDependencies item).all (fun p => order.contains p))) ++
          (p0 :: pt).filter (fun item =>
            !(c.getDependencies item).all (fun p => order.contains p))).Perm
          (c.ops.map Prod.fst) := by
        have h1 := List.filter_append_perm (fun item =>
          (c.getDependencies item).all (fun p => order.contains p)) (p0 :: pt)
        have h2 : ((order ++ (p0 :: pt).filter (fun item =>
              (c.getDependencies item).all (fun p => order.contains p))) ++
            (p0 :: pt).filter (fun item =>
              !(c.getDependencies item).all (fun p => order.contains p))).Perm
            (order ++ (p0 :: pt)) := by
          rw [List.append_assoc]
          exact List.Perm.append_left order h1
        exact h2.trans hperm
      have hde2 : DepsEarlier c (order ++ (p0 :: pt).filter (fun item =>
          (c.getDependencies item).all (fun p => order.contains p))) := by
        apply depsEarlier_append c order _ hde
        intro s hs d hd
        have hfs := (List.mem_filter.mp hs).2
        rw [List.all_eq_true] at hfs
        exact (containsStr_iff order d).mp (hfs d hd)
      exact ih _ _ hlen2 hperm2 hde2

theorem checkDepsFor_ok (c : ConfigC) (opName : String) :
    ∀ deps : List String, opName ∉ deps → (∀ d ∈ deps, (lookupA c.ops d).isSome) →
    checkDepsFor c opName deps = .ok () := by
  intro deps
  induction deps with
  | nil => intro _ _; rfl
  | cons d rest ih =>
    intro hs hex2
    rw [checkDepsFor]
    rw [if_neg (fun hh => hs (by rw [hh]; exact List.mem_cons_self d rest))]
    have hnn : ¬ ((lookupA c.ops d).isNone = true) := by
      have h := hex2 d (List.mem_cons_self d rest)
      cases hl : lookupA c.ops d with
      | none => rw [hl] at h; cases h
      | some v => simp
    rw [if_neg hnn]
    exact ih (fun hh => hs (List.mem_cons.mpr (Or.inr hh)))
      (fun d2 hd2 => hex2 d2 (List.mem_cons.mpr (Or.inr hd2)))

theorem checkAllDeps_ok (c : ConfigC) :
    ∀ l : List (String × TaskC),
    (∀ kv ∈ l, kv.1 ∉ kv.2.dependsOn) →
    (∀ kv ∈ l, ∀ d ∈ kv.2.dependsOn, (lookupA c.ops d).isSome) →
    checkAllDeps c l = .ok () := by
  intro l
  induction l with
  | nil => intro _ _; rfl
  | cons kv rest ih =>
    intro hself hex2
    obtain ⟨name, t⟩ := kv
    rw [checkAllDeps]
    rw [checkDepsFor_ok c name t.dependsOn
      (hself (name, t) (List.mem_cons_self _ _))
      (hex2 (name, t) (List.mem_cons_self _ _))]
    exact ih (fun kv2 h2 => hself kv2 (List.mem_cons.mpr (Or.inr h2)))
      (fun kv2 h2 => hex2 kv2 (List.mem_cons.mpr (Or.inr h2)))

theorem lookupA_map_mk {β : Type} (f : String → β) :
    ∀ (l : List String) (T : String), T ∈ l →
    lookupA (l.map (fun i => (i, f i))) T = some (f T) := by
  intro l
  induction l with
  | nil => intro T h; cases h
  | cons a t ih =>
    intro T h
    rw [List.map_cons, lookupA_cons]
    by_cases ha : a = T
    · rw [if_pos ha, ha]
    · rw [if_neg ha]
      rcases List.mem_cons.mp h with h1 | h2
      · exact absurd h1.symm ha
      · exact ih T h2

/-- **C4.** For every configuration in which all names referenced in
`depends_on` exist, no task depends on itself, and the dependency graph is
acyclic (the direct-dependency relation is well-founded), `build_dag`
succeeds and returns a mapping in reverse topological order: its keys are
a permutation of the task names, every task appears in the mapping before
each of its dependencies (each dependency lies strictly after it in the
emitted order), and each task is mapped to exactly the list of tasks that
declare it in their `depends_on`, in config order. -/
theorem c4_build_dag (c : ConfigC)
    (hex : AllDepsExist c)
    (hself : ∀ kv ∈ c.ops, kv.1 ∉ kv.2.dependsOn)
    (hacyc : Acyclic c) :
    ∃ dag, c.buildDag = .ok dag ∧
      (dag.map Prod.fst).Perm (c.ops.map Prod.fst) ∧
      (∀ l1 t l2, dag.map Prod.fst = l1 ++ t :: l2 →
        ∀ d ∈ c.getDependencies t, d ∈ l2) ∧
      (∀ T ∈ c.ops.map Prod.fst, lookupA dag T =
        some ((c.ops.filter (fun kv => kv.2.dependsOn.contains T)).map Prod.fst)) := by
  have hchk : checkAllDeps c c.ops = .ok () :=
    checkAllDeps_ok c c.ops hself hex
  obtain ⟨orderF, htopo, hpermF, hdeF⟩ :=
    topoLoop_ok c hacyc hex (c.ops.map Prod.fst).length [] (c.ops.map Prod.fst)
      (le_refl _) (by simp) (depsEarlier_nil c)
  refine ⟨((orderF.map (fun item =>
      (item, (c.ops.filter (fun kv => kv.2.dependsOn.contains item)).map Prod.fst))).reverse),
    ?_, ?_, ?_, ?_⟩
  · rw [ConfigC.buildDag, hchk, htopo]
  · rw [List.map_reverse, List.map_map]
    have : (Prod.fst ∘ fun item =>
        (item, (c.ops.filter (fun kv => kv.2.dependsOn.contains item)).map Prod.fst)) =
        id := by
      funext x; rfl
    rw [this, List.map_id]
    exact (List.reverse_perm orderF).trans hpermF
  · intro l1 t l2 hsplit d hd
    rw [List.map_reverse, List.map_map] at hsplit
    have hid : (Prod.fst ∘ fun item =>
        (item, (c.ops.filter (fun kv => kv.2.dependsOn.contains item)).map Prod.fst)) =
        id := by
      funext x; rfl
    rw [hid, List.map_id] at hsplit
    have horder : orderF = l2.reverse ++ t :: l1.reverse := by
      have := congrArg List.reverse hsplit
      rw [List.reverse_reverse] at this
      rw [this]
      simp
    have := hdeF l2.reverse t l1.reverse horder d hd
    simpa using this
  · intro T hT
    have hTo : T ∈ orderF := hpermF.mem_iff.mpr hT
    have hrev : ((orderF.map (fun item =>
        (item, (c.ops.filter (fun kv => kv.2.dependsOn.contains item)).map Prod.fst))).reverse) =
        (orderF.reverse.map (fun item =>
        (item, (c.ops.filter (fun kv => kv.2.dependsOn.contains item)).map Prod.fst))) := by
      rw [List.map_reverse]
    rw [hrev]
    exact lookupA_map_mk _ orderF.reverse T (List.mem_reverse.mpr hTo)

theorem c4_build_dag_witness :
    ∃ dag, (ConfigC.mk [("a", ⟨[]⟩), ("b", ⟨["a"]⟩)]).buildDag = .ok dag ∧
      (dag.map Prod.fst).Perm ["a", "b"] := by
  have hacyc : Acyclic (ConfigC.mk [("a", ⟨[]⟩), ("b", ⟨["a"]⟩)]) := by
    rw [Acyclic]
    constructor
    intro x
    have hacc_a : Acc (fun a b => depStep (ConfigC.mk [("a", ⟨[]⟩), ("b", ⟨["a"]⟩)]) b a) "a" := by
      constructor
      intro y hy
      rw [depStep] at hy
      simp [ConfigC.getDependencies, lookupA] at hy
    constructor
    intro y hy
    rw [depStep] at hy
    by_cases hx : x = "b"
    · rw [hx] at hy
      simp [ConfigC.getDependencies, lookupA] at hy
      rw [hy]
      exact hacc_a
    · by_cases hx2 : x = "a"
      · rw [hx2] at hy
        simp [ConfigC.getDependencies, lookupA] at hy
      · have : ConfigC.getDependencies (ConfigC.mk [("a", ⟨[]⟩), ("b", ⟨["a"]⟩)]) x = [] := by
          rw [ConfigC.getDependencies]
          rw [show lookupA [("a", TaskC.mk []), ("b", TaskC.mk ["a"])] x = none by
            rw [lookupA_cons, lookupA_cons, lookupA_nil]
            rw [if_neg (fun h => hx2 h.symm), if_neg (fun h => hx h.symm)]]
          rfl
        rw [this] at hy
        cases hy
  obtain ⟨dag, h1, h2, _, _⟩ := c4_build_dag (ConfigC.mk [("a", ⟨[]⟩), ("b", ⟨["a"]⟩)])
    (by decide) (by decide) hacyc
  exact ⟨dag, h1, h2⟩

theorem getAllDepsAux_mem (c : ConfigC) :
    ∀ (fuel : Nat) (work acc l : List String),
    getAllDepsAux c fuel work acc = some l →
    ∀ x, x ∈ l ↔ (x ∈ acc ∨ ∃ w ∈ work, x = w ∨ Reaches c w x) := by
  intro fuel
  induction fuel with
  | zero =>
    intro work acc l h x
    match work with
    | [] =>
      rw [getAllDepsAux] at h
      cases h
      simp
    | w :: ws => rw [getAllDepsAux] at h; cases h
  | succ fuel ih =>
    intro work acc l h x
    match work with
    | [] =>
      rw [getAllDepsAux] at h
      cases h
      simp
    | j :: rest =>
      rw [getAllDepsAux] at h
      have hiff := ih _ _ _ h x
      rw [hiff]
      constructor
      · rintro (hacc | ⟨w, hw, hwx⟩)
        · rcases List.mem_append.mp hacc with h1 | h2
          · exact Or.inl h1
          · simp at h2
            exact Or.inr ⟨j, by simp, Or.inl h2⟩
        · rcases List.mem_append.mp hw with h1 | h2
          · have hdep : depStep c j w := List.mem_reverse.mp h1
            refine Or.inr ⟨j, by simp, Or.inr ?_⟩
            rcases hwx with h3 | h3
            · rw [h3]; exact Relation.TransGen.single hdep
            · exact Relation.TransGen.head hdep h3
          · exact Or.inr ⟨w, by simp [h2], hwx⟩
      · rintro (hacc | ⟨w, hw, hwx⟩)
        · exact Or.inl (List.mem_append.mpr (Or.inl hacc))
        · rcases List.mem_cons.mp hw with h1 | h2
          · subst h1
            rcases hwx with h3 | h3
            · exact Or.inl (List.mem_append.mpr (Or.inr (by simp [h3])))
            · obtain ⟨y, hy1, hy2⟩ := Relation.TransGen.head'_iff.mp h3
              refine Or.inr ⟨y, List.mem_append.mpr (Or.inl (List.mem_reverse.mpr hy1)), ?_⟩
              rcases Relation.reflTransGen_iff_eq_or_transGen.mp hy2 with h4 | h4
              · exact Or.inl h4
              · exact Or.inr h4
          · exact Or.inr ⟨w, List.mem_append.mpr (Or.inr h2), hwx⟩

theorem getAllDependencies_mem (c : ConfigC) (fuel : Nat) (jobs l : List String)
    (h : c.getAllDependencies fuel jobs = some l) :
    ∀ x, x ∈ l ↔ ∃ j ∈ jobs, Reaches c j x := by
  intro x
  rw [ConfigC.getAllDependencies] at h
  rw [getAllDepsAux_mem c fuel _ [] l h x]
  simp only [List.not_mem_nil, false_or]
  constructor
  · rintro ⟨w, hw, hwx⟩
    rw [List.mem_reverse, List.mem_join] at hw
    obtain ⟨dl, hdl, hwdl⟩ := hw
    obtain ⟨j, hj, hdlj⟩ := List.mem_map.mp hdl
    have hdep : depStep c j w := by rw [depStep, hdlj]; exact hwdl
    refine ⟨j, hj, ?_⟩
    rcases hwx with h1 | h1
    · rw [h1]; exact Relation.TransGen.single hdep
    · exact Relation.TransGen.head hdep h1
  · rintro ⟨j, hj, hjx⟩
    obtain ⟨y, hy1, hy2⟩ := Relation.TransGen.head'_iff.mp hjx
    refine ⟨y, ?_, ?_⟩
    · rw [List.mem_reverse, List.mem_join]
      exact ⟨c.getDependencies j, List.mem_map.mpr ⟨j, hj, rfl⟩, hy1⟩
    · rcases Relation.reflTransGen_iff_eq_or_transGen.mp hy2 with h4 | h4
      · exact Or.inl h4
      · exact Or.inr h4

/-- The per-job lines of `Config::get_formatted_list_of_jobs`:
`"  - name"`, with `" (d1,d2)"` appended when the job has dependencies. -/
def jobLines (c : ConfigC) : List String :=
  c.ops.map (fun kv =>
    let deps := c.getDependencies kv.1
    let fj := "  - " ++ kv.1
    if deps.isEmpty then fj else fj ++ " (" ++ String.intercalate "," deps ++ ")")

/-- `Config::get_formatted_list_of_jobs`: sort the lines (`Vec::sort`,
modelled by insertion sort — equal strings are identical, so any
comparison sort yields the same list), join with newlines. -/
def ConfigC.getFormattedListOfJobs (c : ConfigC) : String :=
  String.intercalate "\n" (List.insertionSort (α := String) (· ≤ ·) (jobLines c))

/-- The error message of `Config::filter_jobs` for an unknown job
(`\x27` is the ASCII apostrophe). -/
def filterErrMsg (c : ConfigC) (jobName : String) : String :=
  "job \x27" ++ jobName ++ "\x27 not found in config file." ++ "\n\n" ++
    "Valid jobs are:\n" ++ c.getFormattedListOfJobs

/-- `Config::filter_jobs`: fail on the first requested name missing from
the config; with a nonempty request, restrict the task map to the
requested names plus all their transitive dependencies; an empty request
changes nothing. -/
def ConfigC.filterJobs (c : ConfigC) (run : List String) (fuel : Nat) :
    Option (Except String ConfigC) :=
  match run.find? (fun j => (lookupA c.ops j).isNone) with
  | some j => some (.error (filterErrMsg c j))
  | none =>
    if run.isEmpty then some (.ok c)
    else
      match c.getAllDependencies fuel run with
      | none => none
      | some deps =>
        some (.ok ⟨c.ops.filter (fun kv => (deps ++ run).contains kv.1)⟩)

/-- **C9.** `filter_jobs` fails exactly when some requested name is not a
configured task, and then returns the error built for the first unknown
name, embedding the sorted, formatted list of valid jobs with their
dependencies (the sort is a sorted permutation of the per-job lines);
otherwise the task map is restricted to exactly the requested names plus
the transitive closure of their dependencies, and an empty request leaves
the task map unchanged. -/
theorem c9_filter_jobs (c : ConfigC) (run : List String) (fuel : Nat)
    (r : Except String ConfigC)
    (hres : c.filterJobs run fuel = some r) :
    ((∃ j ∈ run, lookupA c.ops j = none) ↔ (∃ e, r = .error e))
    ∧ (∀ j, run.find? (fun j2 => (lookupA c.ops j2).isNone) = some j →
        r = .error (filterErrMsg c j) ∧ lookupA c.ops j = none ∧ j ∈ run)
    ∧ (run = [] → r = .ok c)
    ∧ (∀ c2, r = .ok c2 → run ≠ [] → ∀ kv,
        kv ∈ c2.ops ↔ kv ∈ c.ops ∧ (kv.1 ∈ run ∨ ∃ j ∈ run, Reaches c j kv.1))
    ∧ List.Sorted (α := String) (· ≤ ·)
        (List.insertionSort (α := String) (· ≤ ·) (jobLines c))
    ∧ (List.insertionSort (α := String) (· ≤ ·) (jobLines c)).Perm (jobLines c) := by
  rw [ConfigC.filterJobs] at hres
  cases hfind : run.find? (fun j => (lookupA c.ops j).isNone) with
  | some j =>
    rw [hfind] at hres
    cases hres
    have hpj : (lookupA c.ops j).isNone = true :=
      List.find?_some (p := fun j => (lookupA c.ops j).isNone) hfind
    have hmem : j ∈ run := List.mem_of_find?_eq_some hfind
    refine ⟨?_, ?_, ?_, ?_, List.sorted_insertionSort _ _, List.perm_insertionSort _ _⟩
    · constructor
      · intro _; exact ⟨filterErrMsg c j, rfl⟩
      · intro _; exact ⟨j, hmem, Option.isNone_iff_eq_none.mp hpj⟩
    · intro j2 hj2
      cases hj2
      exact ⟨rfl, Option.isNone_iff_eq_none.mp hpj, hmem⟩
    · intro hrun
      subst hrun
      cases hfind
    · intro c2 hc2
      cases hc2
  | none =>
    rw [hfind] at hres
    have hall : ∀ j ∈ run, ¬ ((lookupA c.ops j).isNone = true) :=
      fun j hj => by
        have := List.find?_eq_none.mp hfind j hj
        simpa using this
    have hnoerr : ¬ ∃ j ∈ run, lookupA c.ops j = none := by
      rintro ⟨j, hj, hnone⟩
      exact hall j hj (by rw [hnone]; rfl)
    by_cases hempty : run = []
    · subst hempty
      simp only [List.isEmpty_nil, if_pos] at hres
      cases hres
      refine ⟨?_, ?_, fun _ => rfl, ?_,
        List.sorted_insertionSort _ _, List.perm_insertionSort _ _⟩
      · constructor
        · rintro ⟨j, hj, _⟩; cases hj
        · rintro ⟨e, he⟩; cases he
      · intro j2 hj2; cases hj2
      · intro c2 hc2 hne; exact absurd rfl hne
    · rw [if_neg (by simpa [List.isEmpty_iff] using hempty)] at hres
      cases hdeps : c.getAllDependencies fuel run with
      | none => rw [hdeps] at hres; cases hres
      | some deps =>
        rw [hdeps] at hres
        cases hres
        refine ⟨?_, ?_, ?_, ?_,
          List.sorted_insertionSort _ _, List.perm_insertionSort _ _⟩
        · constructor
          · intro h; exact absurd h hnoerr
          · rintro ⟨e, he⟩; cases he
        · intro j2 hj2
          cases hj2
        · intro hrun; exact absurd hrun hempty
        · intro c2 hc2 _ kv
          cases hc2
          simp only
          rw [List.mem_filter]
          constructor
          · rintro ⟨hkv, hcont⟩
            refine ⟨hkv, ?_⟩
            have := (containsStr_iff _ _).mp hcont
            rcases List.mem_append.mp this with h1 | h2
            · exact Or.inr ((getAllDependencies_mem c fuel run deps hdeps kv.1).mp h1)
            · exact Or.inl h2
          · rintro ⟨hkv, hin⟩
            refine ⟨hkv, (containsStr_iff _ _).mpr (List.mem_append.mpr ?_)⟩
            rcases hin with h1 | h2
            · exact Or.inr h1
            · exact Or.inl ((getAllDependencies_mem c fuel run deps hdeps kv.1).mpr h2)

theorem c9_filter_jobs_witness :
    (ConfigC.mk [("a", ⟨[]⟩), ("b", ⟨["a"]⟩)]).filterJobs ["b"] 4 =
      some (.ok (ConfigC.mk [("a", ⟨[]⟩), ("b", ⟨["a"]⟩)])) ∧
    ((∃ j ∈ ["b"], lookupA (ConfigC.mk [("a", ⟨[]⟩), ("b", ⟨["a"]⟩)]).ops j = none) ↔
      (∃ e, (Except.ok (ConfigC.mk [("a", ⟨[]⟩), ("b", ⟨["a"]⟩)]) :
        Except String ConfigC) = Except.error e)) := by
  refine ⟨rfl, ?_⟩
  exact (c9_filter_jobs (ConfigC.mk [("a", ⟨[]⟩), ("b", ⟨["a"]⟩)]) ["b"] 4
    (.ok (ConfigC.mk [("a", ⟨[]⟩), ("b", ⟨["a"]⟩)])) rfl).1

/-- Inner loop of `Config::simplify_dependencies` for one job: pop a
dependency (worklist reversed), compute its transitive dependencies, and
retain in both lists only elements not among them.  The extra `Nat` is a
structural bound on the worklist length (each step strictly shrinks the
worklist, so the initial length is always sufficient and the `none` of
the exhausted-bound case is unreachable from the call sites). -/
def simplifyLoop (c : ConfigC) (fuel : Nat) : Nat → List String → List String → Option (List String)
  | _, [], simplified => some simplified
  | 0, _ :: _, _ => none
  | b + 1, d :: rest, simplified =>
    match c.getAllDependencies fuel [d] with
    | none => none
    | some child =>
      simplifyLoop c fuel b (rest.filter (fun j => !child.contains j))
        (simplified.filter (fun j => !child.contains j))

/-- `self.ops.get_mut(&job_name)` + `depends_on = Lift::More(simplified)`:
replace the job's dependency list in place. -/
def updateDeps (c : ConfigC) (j : String) (deps : List String) : ConfigC :=
  ⟨c.ops.map (fun kv => if kv.1 = j then (kv.1, ⟨deps⟩) else kv)⟩

/-- The per-job fold of `Config::simplify_dependencies`. -/
def simplifyGo (fuel : Nat) : ConfigC → List String → Option ConfigC
  | c, [] => some c
  | c, j :: rest =>
    match simplifyLoop c fuel (c.getDependencies j).reverse.length
        (c.getDependencies j).reverse (c.getDependencies j) with
    | none => none
    | some simplified => simplifyGo fuel (updateDeps c j simplified) rest

/-- `Config::simplify_dependencies` (fuelled). -/
def ConfigC.simplifyDependencies (c : ConfigC) (fuel : Nat) : Option ConfigC :=
  simplifyGo fuel c (c.ops.map Prod.fst)

theorem lookupA_updateDeps (c : ConfigC) (j : String) (deps : List String) (x : String) :
    lookupA (updateDeps c j deps).ops x =
      (lookupA c.ops x).map (fun t => if x = j then TaskC.mk deps else t) := by
  rw [updateDeps]
  induction c.ops with
  | nil => rfl
  | cons p t ih =>
    simp only [List.map_cons]
    by_cases hp : p.1 = j
    · rw [if_pos hp]
      rw [lookupA_cons, lookupA_cons]
      by_cases hx : p.1 = x
      · rw [if_pos hx, if_pos hx]
        have : x = j := hx ▸ hp
        simp [this]
      · rw [if_neg hx, if_neg hx]
        exact ih
    · rw [if_neg hp]
      rw [lookupA_cons, lookupA_cons]
      by_cases hx : p.1 = x
      · rw [if_pos hx, if_pos hx]
        have : ¬ (x = j) := fun hh => hp (hx ▸ hh ▸ rfl)
        simp [this]
      · rw [if_neg hx, if_neg hx]
        exact ih

theorem updateDeps_keys (c : ConfigC) (j : String) (deps : List String) :
    (updateDeps c j deps).ops.map Prod.fst = c.ops.map Prod.fst := by
  rw [updateDeps]
  simp only [List.map_map]
  congr 1
  funext kv
  by_cases hp : kv.1 = j <;> simp [hp]

theorem getDeps_updateDeps_ne (c : ConfigC) (j : String) (deps : List String)
    (x : String) (hx : x ≠ j) :
    (updateDeps c j deps).getDependencies x = c.getDependencies x := by
  rw [ConfigC.getDependencies, ConfigC.getDependencies, lookupA_updateDeps]
  cases lookupA c.ops x with
  | none => rfl
  | some t => simp [hx]

theorem getDeps_updateDeps_self (c : ConfigC) (j : String) (deps : List String)
    (hincl : deps ⊆ c.getDependencies j) :
    (updateDeps c j deps).getDependencies j = deps ∨
    ((updateDeps c j deps).getDependencies j = [] ∧ c.getDependencies j = []) := by
  rw [ConfigC.getDependencies, lookupA_updateDeps]
  cases hl : lookupA c.ops j with
  | none =>
    right
    constructor
    · rfl
    · rw [ConfigC.getDependencies, hl]; rfl
  | some t =>
    left
    simp

theorem simplifyLoop_cons (c : ConfigC) (fuel b : Nat) (d : String)
    (rest simplified : List String) :
    simplifyLoop c fuel (b + 1) (d :: rest) simplified =
      (match c.getAllDependencies fuel [d] with
       | none => none
       | some child =>
         simplifyLoop c fuel b (rest.filter (fun j => !child.contains j))
           (simplified.filter (fun j => !child.contains j))) := by
  rw [simplifyLoop]

theorem notMem_of_mem_filterNotContains (child l : List String) (x : String)
    (h : x ∈ l.filter (fun j => !child.contains j)) : x ∉ child := by
  have := (List.mem_filter.mp h).2
  simp only [Bool.not_eq_true'] at this
  intro hc
  rw [(containsStr_iff child x).mpr hc] at this
  cases this

/-- Inner-loop invariant: once the worklist is drained, no survivor
reaches any other survivor (the reach sets of processed elements have
been filtered out of the retained list). -/
theorem simplifyLoop_spec (c : ConfigC) (fuel : Nat) :
    ∀ (n : Nat) (work simplified S : List String),
    simplifyLoop c fuel n work simplified = some S →
    (∀ d ∈ simplified, d ∉ work → ∀ e ∈ simplified, ¬ Reaches c d e) →
    S ⊆ simplified ∧ (∀ d ∈ S, ∀ e ∈ S, ¬ Reaches c d e) := by
  intro n
  induction n with
  | zero =>
    intro work simplified S hres hinv
    match work with
    | [] =>
      rw [simplifyLoop] at hres
      cases hres
      exact ⟨fun x hx => hx, fun d hd e he => hinv d hd (by simp) e he⟩
    | w :: ws => rw [simplifyLoop] at hres; cases hres
  | succ n ih =>
    intro work simplified S hres hinv
    match work with
    | [] =>
      rw [simplifyLoop] at hres
      cases hres
      exact ⟨fun x hx => hx, fun d hd e he => hinv d hd (by simp) e he⟩
    | d0 :: rest =>
      rw [simplifyLoop_cons] at hres
      cases hchild : c.getAllDependencies fuel [d0] with
      | none => rw [hchild] at hres; cases hres
      | some child =>
        rw [hchild] at hres
        have hchar : ∀ x, x ∈ child ↔ Reaches c d0 x := by
          intro x
          have := getAllDependencies_mem c fuel [d0] child hchild x
          simpa using this
        have hinv2 : ∀ d ∈ simplified.filter (fun j => !child.contains j),
            d ∉ rest.filter (fun j => !child.contains j) →
            ∀ e ∈ simplified.filter (fun j => !child.contains j), ¬ Reaches c d e := by
          intro d hd hdw e he
          have hds : d ∈ simplified := (List.mem_filter.mp hd).1
          have hes : e ∈ simplified := (List.mem_filter.mp he).1
          by_cases hdd : d = d0
          · subst hdd
            have : e ∉ child := notMem_of_mem_filterNotContains child simplified e he
            exact fun hre => this ((hchar e).mpr hre)
          · have hdnw : d ∉ (d0 :: rest) := by
              intro hmem
              rcases List.mem_cons.mp hmem with h1 | h2
              · exact hdd h1
              · have hdc : d ∉ child := notMem_of_mem_filterNotContains child simplified d hd
                have : d ∈ rest.filter (fun j => !child.contains j) := by
                  rw [List.mem_filter]
                  refine ⟨h2, ?_⟩
                  simp only [Bool.not_eq_true']
                  rw [← Bool.not_eq_true]
                  intro hc
                  exact hdc ((containsStr_iff child d).mp hc)
                exact hdw this
            exact hinv d hds hdnw e hes
        obtain ⟨hsub, hpair⟩ := ih _ _ S hres hinv2
        refine ⟨fun x hx => (List.mem_filter.mp (hsub hx)).1, hpair⟩

theorem reaches_mono (c c' : ConfigC)
    (hsub : ∀ x, c'.getDependencies x ⊆ c.getDependencies x) :
    ∀ a b, Reaches c' a b → Reaches c a b :=
  fun _ _ h => Relation.TransGen.mono (fun x y hxy => hsub x hxy) h

theorem simplifyGo_spec (fuel : Nat) :
    ∀ (js : List String) (c cF : ConfigC),
    simplifyGo fuel c js = some cF → js.Nodup →
    (∀ x, cF.getDependencies x ⊆ c.getDependencies x)
    ∧ (cF.ops.map Prod.fst = c.ops.map Prod.fst)
    ∧ (∀ x, x ∉ js → cF.getDependencies x = c.getDependencies x)
    ∧ (∀ j ∈ js, ∀ d ∈ cF.getDependencies j, ∀ e ∈ cF.getDependencies j,
        ¬ Reaches cF d e) := by
  intro js
  induction js with
  | nil =>
    intro c cF h _
    rw [simplifyGo] at h
    cases h
    exact ⟨fun x => fun a ha => ha, rfl, fun x _ => rfl, fun j hj => by cases hj⟩
  | cons j rest ih =>
    intro c cF h hnd
    rw [simplifyGo] at h
    cases hloop : simplifyLoop c fuel (c.getDependencies j).reverse.length
        (c.getDependencies j).reverse (c.getDependencies j) with
    | none => rw [hloop] at h; cases h
    | some S =>
      rw [hloop] at h
      have hinner := simplifyLoop_spec c fuel
        ((c.getDependencies j).reverse.length) _ _ S hloop
        (by
          intro d hd hdw e he
          exact absurd (List.mem_reverse.mpr hd) hdw)
      obtain ⟨hS, hSpair⟩ := hinner
      have hndc := List.nodup_cons.mp hnd
      have hc1j : (updateDeps c j S).getDependencies j = S := by
        rcases getDeps_updateDeps_self c j S hS with h1 | ⟨h1, h2⟩
        · exact h1
        · rw [h1]
          have : S = [] := by
            rw [h2] at hS
            exact List.eq_nil_iff_forall_not_mem.mpr
              (fun x hx => absurd (hS hx) (List.not_mem_nil x))
          rw [this]
      have hc1sub : ∀ x, (updateDeps c j S).getDependencies x ⊆ c.getDependencies x := by
        intro x
        by_cases hx : x = j
        · subst hx; rw [hc1j]; exact hS
        · rw [getDeps_updateDeps_ne c j S x hx]
          exact fun a ha => ha
      obtain ⟨hmono, hkeys, huntouched, hpair⟩ := ih (updateDeps c j S) cF h hndc.2
      have hsubF : ∀ x, cF.getDependencies x ⊆ c.getDependencies x :=
        fun x => (hmono x).trans (hc1sub x)
      refine ⟨hsubF, hkeys.trans (updateDeps_keys c j S), ?_, ?_⟩
      · intro x hx
        have hx1 : x ≠ j := fun hh => hx (by rw [hh]; exact List.mem_cons_self _ _)
        have hx2 : x ∉ rest := fun hh => hx (List.mem_cons.mpr (Or.inr hh))
        rw [huntouched x hx2, getDeps_updateDeps_ne c j S x hx1]
      · intro j2 hj2 d hd e he
        rcases List.mem_cons.mp hj2 with h1 | h2
        · subst h1
          have hdepsF : cF.getDependencies j2 = S := by
            rw [huntouched j2 hndc.1, hc1j]
          rw [hdepsF] at hd he
          have := hSpair d hd e he
          exact fun hre => this (reaches_mono c cF hsubF d e hre)
        · exact hpair j2 h2 d hd e he

theorem lookupA_of_mem_nodup {β : Type} :
    ∀ (l : List (String × β)), (l.map Prod.fst).Nodup →
    ∀ kv ∈ l, lookupA l kv.1 = some kv.2 := by
  intro l
  induction l with
  | nil => intro _ kv h; cases h
  | cons p t ih =>
    intro hnd kv h
    rw [List.map_cons] at hnd
    have hnd2 := List.nodup_cons.mp hnd
    rcases List.mem_cons.mp h with h1 | h2
    · subst h1
      rw [lookupA_cons, if_pos rfl]
    · rw [lookupA_cons]
      by_cases hp : p.1 = kv.1
      · exfalso
        apply hnd2.1
        rw [hp]
        exact List.mem_map.mpr ⟨kv, h2, rfl⟩
      · rw [if_neg hp]
        exact ih hnd2.2 kv h2

/-- **C8.** After `simplify_dependencies` runs (on a config with unique
task names), for every task and every element `d` of its dependency
list, no other element `e` of the same list is a transitive dependency of
`d` in the simplified config; in particular a task depending on both `B`
and `C`, where `B` depends on `C`, keeps only `B` (see the witness). -/
theorem c8_simplify_dependencies (c : ConfigC) (fuel : Nat) (c2 : ConfigC)
    (hnd : (c.ops.map Prod.fst).Nodup)
    (hres : c.simplifyDependencies fuel = some c2) :
    ∀ kv ∈ c2.ops, ∀ d ∈ kv.2.dependsOn, ∀ e ∈ kv.2.dependsOn, e ≠ d →
      ¬ Reaches c2 d e := by
  rw [ConfigC.simplifyDependencies] at hres
  obtain ⟨hmono, hkeys, huntouched, hpair⟩ := simplifyGo_spec fuel (c.ops.map Prod.fst)
    c c2 hres hnd
  intro kv hkv d hd e he _
  have hkeys2 : (c2.ops.map Prod.fst).Nodup := by rw [hkeys]; exact hnd
  have hlk : lookupA c2.ops kv.1 = some kv.2 := lookupA_of_mem_nodup c2.ops hkeys2 kv hkv
  have hdeps : c2.getDependencies kv.1 = kv.2.dependsOn := by
    rw [ConfigC.getDependencies, hlk]; rfl
  have hj : kv.1 ∈ c.ops.map Prod.fst := by
    rw [← hkeys]
    exact List.mem_map.mpr ⟨kv, hkv, rfl⟩
  exact hpair kv.1 hj d (hdeps ▸ hd) e (hdeps ▸ he)

theorem c8_simplify_dependencies_witness :
    ((ConfigC.mk [("a", ⟨["b", "c"]⟩), ("b", ⟨["c"]⟩), ("c", ⟨[]⟩)]).ops.map
      Prod.fst).Nodup ∧
    (ConfigC.mk [("a", ⟨["b", "c"]⟩), ("b", ⟨["c"]⟩), ("c", ⟨[]⟩)]).simplifyDependencies 6 =
      some (ConfigC.mk [("a", ⟨["b"]⟩), ("b", ⟨["c"]⟩), ("c", ⟨[]⟩)]) ∧
    (∀ kv ∈ (ConfigC.mk [("a", ⟨["b"]⟩), ("b", ⟨["c"]⟩), ("c", ⟨[]⟩)]).ops,
      ∀ d ∈ kv.2.dependsOn, ∀ e ∈ kv.2.dependsOn, e ≠ d →
      ¬ Reaches (ConfigC.mk [("a", ⟨["b"]⟩), ("b", ⟨["c"]⟩), ("c", ⟨[]⟩)]) d e) := by
  refine ⟨by decide, by rfl, ?_⟩
  exact c8_simplify_dependencies
    (ConfigC.mk [("a", ⟨["b", "c"]⟩), ("b", ⟨["c"]⟩), ("c", ⟨[]⟩)]) 6
    (ConfigC.mk [("a", ⟨["b"]⟩), ("b", ⟨["c"]⟩), ("c", ⟨[]⟩)]) (by decide) (by rfl)

end Whiz
